import Mathlib

/-!
Verification of the CallGraphTool post-processing core
(`src/callgraphtool/cli.py`): the DOT-decoded call-graph model, the label
reconciler (`display_label`), the deterministic call-tree renderer
(`_dot_to_call_tree`'s `dfs` / root loop), the start-selector builder
(`_start_selector`), the subset-file header splice
(`_prepend_tree_to_subset_file`), and the spec-described source normalizer's
generic-call bracket stripping.

Python strings are modelled as Lean `String` (a list of code points, matching
Python's sequence-of-code-points semantics); Python dicts keyed by strings are
modelled as association lists with last-write-wins lookup; Python sets are
modelled as lists with membership tests (insertion = `cons`, iteration for
`set(...)` dedup = keep-first-occurrence order).  The renderer's recursion is
given explicit fuel (structural, so that concrete runs compute); a stabilization
theorem shows the output is fuel-independent beyond an explicit bound, which is
the termination content of the Python recursion.
-/

/-! ## Generic list utilities: keep-first dedup and stable insertion sort -/

def dedupFAux {α : Type} [DecidableEq α] (seen : List α) : List α → List α
  | [] => []
  | a :: l => if a ∈ seen then dedupFAux seen l else a :: dedupFAux (a :: seen) l

/-- Keep-first-occurrence deduplication (models building a Python `set` /
dict-key collection in insertion order). -/
def dedupF {α : Type} [DecidableEq α] (l : List α) : List α := dedupFAux [] l

theorem mem_dedupFAux {α : Type} [DecidableEq α] (x : α) :
    ∀ (l seen : List α), x ∈ dedupFAux seen l ↔ x ∈ l ∧ x ∉ seen := by
  intro l
  induction l with
  | nil => intro seen; simp [dedupFAux]
  | cons a t ih =>
    intro seen
    by_cases ha : a ∈ seen
    · rw [show dedupFAux seen (a :: t) = dedupFAux seen t from by
        simp [dedupFAux, ha], ih]
      constructor
      · rintro ⟨hx, hns⟩
        exact ⟨List.mem_cons_of_mem _ hx, hns⟩
      · rintro ⟨hx, hns⟩
        rcases List.mem_cons.mp hx with rfl | hx'
        · exact absurd ha hns
        · exact ⟨hx', hns⟩
    · rw [show dedupFAux seen (a :: t) = a :: dedupFAux (a :: seen) t from by
        simp [dedupFAux, ha]]
      constructor
      · intro hmem
        rcases List.mem_cons.mp hmem with rfl | hmem'
        · exact ⟨List.mem_cons_self _ _, ha⟩
        · rcases (ih (a :: seen)).mp hmem' with ⟨hx, hns⟩
          exact ⟨List.mem_cons_of_mem _ hx,
            fun hc => hns (List.mem_cons_of_mem _ hc)⟩
      · rintro ⟨hx, hns⟩
        by_cases hxa : x = a
        · subst hxa; exact List.mem_cons_self _ _
        · rcases List.mem_cons.mp hx with rfl | hx'
          · exact absurd rfl hxa
          · refine List.mem_cons_of_mem _ ((ih (a :: seen)).mpr ⟨hx', ?_⟩)
            intro hc
            rcases List.mem_cons.mp hc with h | h
            · exact hxa h
            · exact hns h

theorem mem_dedupF {α : Type} [DecidableEq α] (x : α) (l : List α) :
    x ∈ dedupF l ↔ x ∈ l := by
  simp [dedupF, mem_dedupFAux]

theorem nodup_dedupFAux {α : Type} [DecidableEq α] :
    ∀ (l seen : List α), (dedupFAux seen l).Nodup := by
  intro l
  induction l with
  | nil => intro seen; simp [dedupFAux]
  | cons a t ih =>
    intro seen
    by_cases ha : a ∈ seen
    · simpa [dedupFAux, if_pos ha] using ih seen
    · simp only [dedupFAux, if_neg ha]
      refine List.nodup_cons.mpr ⟨?_, ih (a :: seen)⟩
      intro hmem
      exact ((mem_dedupFAux a t (a :: seen)).mp hmem).2 (List.mem_cons_self a seen)

theorem nodup_dedupF {α : Type} [DecidableEq α] (l : List α) : (dedupF l).Nodup :=
  nodup_dedupFAux l []

theorem dedupFAux_length_le {α : Type} [DecidableEq α] :
    ∀ (l seen : List α), (dedupFAux seen l).length ≤ l.length := by
  intro l
  induction l with
  | nil => intro seen; simp [dedupFAux]
  | cons a t ih =>
    intro seen
    by_cases ha : a ∈ seen
    · simp only [dedupFAux, if_pos ha]
      exact Nat.le_succ_of_le (ih seen)
    · simp only [dedupFAux, if_neg ha, List.length_cons]
      exact Nat.succ_le_succ (ih (a :: seen))

theorem dedupF_length_le {α : Type} [DecidableEq α] (l : List α) :
    (dedupF l).length ≤ l.length := dedupFAux_length_le l []

def insertLe {α : Type} (le : α → α → Bool) (a : α) : List α → List α
  | [] => [a]
  | b :: l => if le a b then a :: b :: l else b :: insertLe le a l

/-- Stable insertion sort (models Python's stable `sorted`). -/
def isort {α : Type} (le : α → α → Bool) : List α → List α
  | [] => []
  | a :: l => insertLe le a (isort le l)

theorem insertLe_perm {α : Type} (le : α → α → Bool) (a : α) :
    ∀ l : List α, (insertLe le a l).Perm (a :: l) := by
  intro l
  induction l with
  | nil => simp [insertLe]
  | cons b t ih =>
    by_cases h : le a b
    · simp [insertLe, h]
    · simp only [insertLe, if_neg h]
      exact (ih.cons b).trans (List.Perm.swap a b t)

theorem isort_perm {α : Type} (le : α → α → Bool) :
    ∀ l : List α, (isort le l).Perm l := by
  intro l
  induction l with
  | nil => simp [isort]
  | cons a t ih =>
    exact (insertLe_perm le a (isort le t)).trans (ih.cons a)

theorem isort_length {α : Type} (le : α → α → Bool) (l : List α) :
    (isort le l).length = l.length := (isort_perm le l).length_eq

theorem pairwise_insertLe {α : Type} (le : α → α → Bool)
    (htot : ∀ a b, le a b = true ∨ le b a = true)
    (htrans : ∀ a b c, le a b = true → le b c = true → le a c = true)
    (a : α) :
    ∀ l : List α, l.Pairwise (fun x y => le x y = true) →
      (insertLe le a l).Pairwise (fun x y => le x y = true) := by
  intro l
  induction l with
  | nil => intro _; simp [insertLe]
  | cons b t ih =>
    intro hp
    rcases List.pairwise_cons.mp hp with ⟨hb, ht⟩
    by_cases h : le a b
    · simp only [insertLe, if_pos h]
      refine List.pairwise_cons.mpr ⟨?_, hp⟩
      intro x hx
      rcases List.mem_cons.mp hx with rfl | hx
      · exact h
      · exact htrans a b x h (hb x hx)
    · simp only [insertLe, if_neg h]
      refine List.pairwise_cons.mpr ⟨?_, ih ht⟩
      intro x hx
      have hx' := (insertLe_perm le a t).mem_iff.mp hx
      rcases List.mem_cons.mp hx' with heq | hx''
      · rw [heq]
        rcases htot a b with h' | h'
        · exact absurd h' h
        · exact h'
      · exact hb x hx''

theorem pairwise_isort {α : Type} (le : α → α → Bool)
    (htot : ∀ a b, le a b = true ∨ le b a = true)
    (htrans : ∀ a b c, le a b = true → le b c = true → le a c = true) :
    ∀ l : List α, (isort le l).Pairwise (fun x y => le x y = true) := by
  intro l
  induction l with
  | nil => simp [isort]
  | cons a t ih => exact pairwise_insertLe le htot htrans a (isort le t) ih

/-- Two lists that are permutations of each other, both sorted for `le`, and on
whose elements `le` is antisymmetric, are equal.  This is the determinism core:
a sort of a set of keys is canonical when keys do not tie. -/
theorem eq_of_perm_of_pairwise {α : Type} (le : α → α → Bool) :
    ∀ (l₁ l₂ : List α),
      (∀ a b, a ∈ l₁ → b ∈ l₁ → le a b = true → le b a = true → a = b) →
      l₁.Perm l₂ →
      l₁.Pairwise (fun x y => le x y = true) →
      l₂.Pairwise (fun x y => le x y = true) →
      l₁ = l₂ := by
  intro l₁
  induction l₁ with
  | nil =>
    intro l₂ _ hperm _ _
    exact (List.perm_nil.mp hperm.symm).symm
  | cons a t ih =>
    intro l₂ hanti hperm hp₁ hp₂
    cases l₂ with
    | nil => simp [List.perm_nil] at hperm
    | cons b t₂ =>
      rcases List.pairwise_cons.mp hp₁ with ⟨ha₁, ht₁⟩
      rcases List.pairwise_cons.mp hp₂ with ⟨hb₂, ht₂⟩
      have hab : a = b := by
        have hamem : a ∈ b :: t₂ := hperm.mem_iff.mp (List.mem_cons_self a t)
        rcases List.mem_cons.mp hamem with h | h
        · exact h
        · have hbmem : b ∈ a :: t := hperm.mem_iff.mpr (List.mem_cons_self b t₂)
          rcases List.mem_cons.mp hbmem with h' | h'
          · exact h'.symm
          · exact hanti a b (List.mem_cons_self a t) (List.mem_cons_of_mem _ h')
              (ha₁ b h') (hb₂ a h)
      subst hab
      have htperm : t.Perm t₂ := hperm.cons_inv
      have : t = t₂ := by
        refine ih t₂ ?_ htperm ht₁ ht₂
        intro x y hx hy
        exact hanti x y (List.mem_cons_of_mem _ hx) (List.mem_cons_of_mem _ hy)
      rw [this]

/-! ## Lexicographic order on strings (Python's code-point ordering),
    kernel-computable -/

def listLtB : List Char → List Char → Bool
  | [], [] => false
  | [], _ :: _ => true
  | _ :: _, [] => false
  | a :: as, b :: bs =>
    if a.toNat < b.toNat then true
    else if b.toNat < a.toNat then false
    else listLtB as bs

theorem char_eq_of_toNat_eq {a b : Char} (h : a.toNat = b.toNat) : a = b :=
  Char.eq_of_val_eq (UInt32.ext h)

theorem listLtB_trichotomy :
    ∀ a b : List Char, listLtB a b = false → listLtB b a = false → a = b := by
  intro a
  induction a with
  | nil =>
    intro b h₁ _
    cases b with
    | nil => rfl
    | cons x xs => simp [listLtB] at h₁
  | cons x xs ih =>
    intro b h₁ h₂
    cases b with
    | nil => simp [listLtB] at h₂
    | cons y ys =>
      by_cases hxy : x.toNat < y.toNat
      · simp [listLtB, hxy] at h₁
      · by_cases hyx : y.toNat < x.toNat
        · simp [listLtB, hyx, hxy] at h₂
        · have hx : x = y := char_eq_of_toNat_eq
            (Nat.le_antisymm (Nat.le_of_not_lt hyx) (Nat.le_of_not_lt hxy))
          subst hx
          simp only [listLtB, if_neg hxy, if_neg hyx] at h₁ h₂
          rw [ih ys h₁ h₂]

theorem listLtB_asymm :
    ∀ a b : List Char, listLtB a b = true → listLtB b a = false := by
  intro a
  induction a with
  | nil =>
    intro b h
    cases b with
    | nil => simp [listLtB] at h
    | cons x xs => simp [listLtB]
  | cons x xs ih =>
    intro b h
    cases b with
    | nil => simp [listLtB] at h
    | cons y ys =>
      by_cases hxy : x.toNat < y.toNat
      · simp [listLtB, Nat.not_lt.mpr (Nat.le_of_lt hxy), hxy]
      · by_cases hyx : y.toNat < x.toNat
        · simp [listLtB, hxy, hyx] at h
        · simp only [listLtB, if_neg hxy, if_neg hyx] at h ⊢
          exact ih ys h

theorem listLtB_trans :
    ∀ a b c : List Char, listLtB a b = true → listLtB b c = true →
      listLtB a c = true := by
  intro a
  induction a with
  | nil =>
    intro b c h₁ h₂
    cases c with
    | nil =>
      cases b with
      | nil => simp [listLtB] at h₁
      | cons y ys => simp [listLtB] at h₂
    | cons z zs => simp [listLtB]
  | cons x xs ih =>
    intro b c h₁ h₂
    cases b with
    | nil => simp [listLtB] at h₁
    | cons y ys =>
      cases c with
      | nil => simp [listLtB] at h₂
      | cons z zs =>
        by_cases hxy : x.toNat < y.toNat
        · by_cases hyz : y.toNat < z.toNat
          · simp [listLtB, Nat.lt_trans hxy hyz]
          · by_cases hzy : z.toNat < y.toNat
            · simp [listLtB, hyz, hzy] at h₂
            · have hyzeq : y.toNat = z.toNat :=
                Nat.le_antisymm (Nat.le_of_not_lt hzy) (Nat.le_of_not_lt hyz)
              simp [listLtB, hyzeq ▸ hxy]
        · by_cases hyx : y.toNat < x.toNat
          · simp [listLtB, hxy, hyx] at h₁
          · have hxyeq : x.toNat = y.toNat :=
              Nat.le_antisymm (Nat.le_of_not_lt hyx) (Nat.le_of_not_lt hxy)
            simp only [listLtB, if_neg hxy, if_neg hyx] at h₁
            by_cases hyz : y.toNat < z.toNat
            · simp [listLtB, hxyeq ▸ hyz]
            · by_cases hzy : z.toNat < y.toNat
              · simp [listLtB, hyz, hzy] at h₂
              · simp only [listLtB, if_neg hyz, if_neg hzy] at h₂
                have hxz : ¬ x.toNat < z.toNat := by omega
                have hzx : ¬ z.toNat < x.toNat := by omega
                simp only [listLtB, if_neg hxz, if_neg hzx]
                exact ih ys zs h₁ h₂

theorem listLtB_false_trans (a b c : List Char) :
    listLtB b a = false → listLtB c b = false → listLtB c a = false := by
  intro h₁ h₂
  cases hv : listLtB c a with
  | false => rfl
  | true =>
    exfalso
    cases hab : listLtB a b with
    | true =>
      have hcb := listLtB_trans c a b hv hab
      rw [h₂] at hcb
      exact Bool.noConfusion hcb
    | false =>
      have hba : a = b := listLtB_trichotomy a b hab h₁
      rw [hba] at hv
      rw [h₂] at hv
      exact Bool.noConfusion hv

/-- `a ≤ b` on strings as Python compares them (lexicographic by code point). -/
def strLeB (a b : String) : Bool := !listLtB b.data a.data

theorem strLeB_total (a b : String) : strLeB a b = true ∨ strLeB b a = true := by
  unfold strLeB
  cases h : listLtB b.data a.data with
  | false => left; rfl
  | true => right; rw [listLtB_asymm _ _ h]; rfl

theorem strLeB_trans (a b c : String) :
    strLeB a b = true → strLeB b c = true → strLeB a c = true := by
  unfold strLeB
  intro h₁ h₂
  have h₁' : listLtB b.data a.data = false := by
    cases hv : listLtB b.data a.data
    · rfl
    · rw [hv] at h₁; exact Bool.noConfusion h₁
  have h₂' : listLtB c.data b.data = false := by
    cases hv : listLtB c.data b.data
    · rfl
    · rw [hv] at h₂; exact Bool.noConfusion h₂
  rw [listLtB_false_trans a.data b.data c.data h₁' h₂']
  rfl

theorem strLeB_antisymm (a b : String) :
    strLeB a b = true → strLeB b a = true → a = b := by
  unfold strLeB
  intro h₁ h₂
  have h₁' : listLtB b.data a.data = false := by
    cases hv : listLtB b.data a.data
    · rfl
    · rw [hv] at h₁; exact Bool.noConfusion h₁
  have h₂' : listLtB a.data b.data = false := by
    cases hv : listLtB a.data b.data
    · rfl
    · rw [hv] at h₂; exact Bool.noConfusion h₂
  have hdata : a.data = b.data := listLtB_trichotomy a.data b.data h₂' h₁'
  cases a
  cases b
  exact congrArg String.mk hdata


/-- Python tuple comparison on `(String, String)` keys:
`(a,b) ≤ (c,d)` iff `a < c` or (`a = c` and `b ≤ d`). -/
def pairLeB (p q : String × String) : Bool :=
  if p.1 = q.1 then strLeB p.2 q.2 else listLtB p.1.data q.1.data

theorem pairLeB_total (p q : String × String) :
    pairLeB p q = true ∨ pairLeB q p = true := by
  unfold pairLeB
  by_cases h : p.1 = q.1
  · rw [if_pos h, if_pos h.symm]
    exact strLeB_total p.2 q.2
  · rw [if_neg h, if_neg (fun hc => h hc.symm)]
    cases hv : listLtB p.1.data q.1.data with
    | true => left; rfl
    | false =>
      cases hw : listLtB q.1.data p.1.data with
      | true => right; rfl
      | false =>
        exfalso
        have : p.1.data = q.1.data := listLtB_trichotomy _ _ hv hw
        apply h
        cases hp : p.1
        cases hq : q.1
        rw [hp, hq] at this
        exact congrArg String.mk this

theorem pairLeB_trans (p q r : String × String) :
    pairLeB p q = true → pairLeB q r = true → pairLeB p r = true := by
  unfold pairLeB
  by_cases hpq : p.1 = q.1
  · by_cases hqr : q.1 = r.1
    · rw [if_pos hpq, if_pos hqr, if_pos (hpq.trans hqr)]
      exact strLeB_trans _ _ _
    · rw [if_pos hpq, if_neg hqr, if_neg (hpq ▸ hqr)]
      intro _ h₂
      rw [hpq]
      exact h₂
  · by_cases hqr : q.1 = r.1
    · rw [if_neg hpq, if_pos hqr, if_neg (fun hc => hpq (hc.trans hqr.symm))]
      intro h₁ _
      rw [← hqr]
      exact h₁
    · rw [if_neg hpq, if_neg hqr]
      by_cases hpr : p.1 = r.1
      · rw [if_pos hpr]
        intro h₁ h₂
        exfalso
        rw [hpr] at h₁
        have := listLtB_trans _ _ _ h₁ h₂
        have hfalse := listLtB_asymm _ _ h₂
        -- r.1 < q.1 from h₁ (p.1 = r.1), q.1 < r.1 from h₂: asymmetry
        have := listLtB_trans _ _ _ h₂ h₁
        rw [listLtB_asymm _ _ h₂] at h₁
        exact Bool.noConfusion h₁
      · rw [if_neg hpr]
        exact listLtB_trans _ _ _

theorem pairLeB_antisymm (p q : String × String) :
    pairLeB p q = true → pairLeB q p = true → p = q := by
  unfold pairLeB
  by_cases h : p.1 = q.1
  · rw [if_pos h, if_pos h.symm]
    intro h₁ h₂
    have := strLeB_antisymm _ _ h₁ h₂
    exact Prod.ext h this
  · rw [if_neg h, if_neg (fun hc => h hc.symm)]
    intro h₁ h₂
    exfalso
    rw [listLtB_asymm _ _ h₂] at h₁
    exact Bool.noConfusion h₁

/-! ## The decoded graph model (output of the Graph Decoder, §4.3)

`_dot_to_call_tree` first decodes the DOT text into: `node_file` and
`node_func` (dicts node id → label part), `initial_nodes` (ids carrying the
root-highlight fill color), and the edge list in the order the edge regex
produced it.  The claims under verification are about everything the function
does with this decoded state, so the embedding starts there. -/

structure Occ where
  rel : String
  line : String
  func : String
deriving DecidableEq

structure DotGraph where
  nodeFile : List (String × String)
  nodeFunc : List (String × String)
  initialNodes : List String
  edges : List (String × String)

/-- Python dict lookup for a dict built by repeated assignment:
the LAST binding for a key wins. -/
def dictGet (m : List (String × String)) (k : String) : Option String :=
  (m.reverse.find? (fun p => p.1 = k)).map (·.2)

def dictGetD (m : List (String × String)) (k d : String) : String :=
  (dictGet m k).getD d

/-- `calls.get(node_id, [])` where `calls` collects `to_node`s in edge order
(`calls.setdefault(from_node, []).append(to_node)`). -/
def callsGet (edges : List (String × String)) (n : String) : List String :=
  (edges.filter (fun e => e.1 = n)).map (·.2)

/-- The keys of the Python `indegree` dict, in insertion order: for each edge,
`to_node` is touched first, then `from_node`; first touch inserts the key. -/
def indegKeys (edges : List (String × String)) : List String :=
  dedupF (edges.flatMap (fun e => [e.2, e.1]))

/-- In-degree of `n`: the number of edges whose callee is `n`. -/
def indegOf (edges : List (String × String)) (n : String) : Nat :=
  edges.countP (fun e => e.2 = n)

/-- `sorted([node for node, degree in indegree.items() if degree == 0])`. -/
def zeroIndeg (edges : List (String × String)) : List String :=
  isort strLeB ((indegKeys edges).filter (fun n => indegOf edges n == 0))

/-- `roots = initial_nodes or sorted(...)` (line 305). -/
def rootsOf (g : DotGraph) : List String :=
  if g.initialNodes.isEmpty then zeroIndeg g.edges else g.initialNodes

/-- `child_sort_key` (lines 348-349). -/
def childKey (g : DotGraph) (n : String) : String × String :=
  (dictGetD g.nodeFunc n n, dictGetD g.nodeFile n "")

def childLeB (g : DotGraph) (a b : String) : Bool :=
  pairLeB (childKey g a) (childKey g b)

/-- `sorted(set(calls.get(node_id, [])), key=child_sort_key)` (line 360):
the Python set is modelled as keep-first dedup of the collected callee list,
then a stable ascending sort by `(function, file)` key. -/
def sortedChildren (g : DotGraph) (n : String) : List String :=
  isort (childLeB g) (dedupF (callsGet g.edges n))

/-! ## The Label Reconciler (`display_label`, lines 316-346, §4.4)

Path normalization (`Path(...).resolve().relative_to(folder.resolve())` with
its `except` fallback, and `str(Path(...))` for relative labels) is filesystem
dependent, so it is abstracted as a parameter `normF`; everything else of
`display_label` is embedded literally. -/

def hasSep (s : String) : Bool :=
  s.data.contains '/' || s.data.contains '\\'

/-- Split a character list at every occurrence of `sep`
(kernel-computable analogue of `str.split`). -/
def splitOnChar (sep : Char) : List Char → List (List Char)
  | [] => [[]]
  | c :: r =>
    if c = sep then [] :: splitOnChar sep r
    else
      match splitOnChar sep r with
      | [] => [[c]]
      | h :: t => (c :: h) :: t

/-- `Path(p).name`: the final `/`-separated component
(the embedding models POSIX path semantics). -/
def pathBasename (s : String) : String :=
  String.mk ((splitOnChar '/' s.data).getLastD s.data)

/-- `sources_by_relpath_func` lookup: built by repeated dict assignment over
the subset-listing occurrences, so the LAST occurrence for a
`(relative_path, function)` key wins (lines 309-314). -/
def relIndex (srcs : List Occ) (rp fn : String) : Option String :=
  (srcs.reverse.find? (fun o => o.rel = rp && o.func = fn)).map
    (fun o => o.rel ++ ":" ++ o.line)

/-- `sources_by_basename_func` candidates: the set of `"relpath:line"` strings
for a `(basename, function)` key, in first-insertion order (lines 307-313). -/
def baseCandidates (srcs : List Occ) (bn fn : String) : List String :=
  dedupF ((srcs.filter (fun o => pathBasename o.rel = bn && o.func = fn)).map
    (fun o => o.rel ++ ":" ++ o.line))

/-- `display_label` (lines 316-346), embedded from the source. -/
def displayLabel (normF : String → String) (srcs : List Occ) (g : DotGraph)
    (nodeId : String) : String :=
  let func := dictGetD g.nodeFunc nodeId nodeId
  let fileLabel := dictGetD g.nodeFile nodeId ""
  let normalized : Option String :=
    if fileLabel ≠ "" ∧ hasSep fileLabel then some (normF fileLabel) else none
  let source₁ : Option String :=
    match normalized with
    | some nl => relIndex srcs nl func
    | none => none
  let source : Option String :=
    match source₁ with
    | some s => some s
    | none =>
      if fileLabel ≠ "" then
        let cs := baseCandidates srcs (pathBasename fileLabel) func
        if cs.length = 1 then cs.head? else none
      else none
  match source with
  | some s => func ++ " (" ++ s ++ ")"
  | none =>
    match normalized with
    | some nl =>
      if nl ≠ "" then func ++ " (" ++ nl ++ ")"
      else if fileLabel ≠ "" then func ++ " (" ++ fileLabel ++ ")"
      else func
    | none =>
      if fileLabel ≠ "" then func ++ " (" ++ fileLabel ++ ")"
      else func

/-! ## The Call-Tree Renderer (`dfs` lines 359-377 and root loop 380-388, §4.5)

`dfs` is embedded as `goC`, a function over the (sorted, deduplicated)
children list of the current node, threading the mutable `global_seen` set
explicitly and taking the child-list function `childF` and the display
function `disp` as parameters (they are closures over fixed decoded state in
the source).  The recursion is structural in an explicit fuel so that the
function computes; `goC_stable` below shows the fuel is irrelevant beyond a
bound, which is exactly the termination of the Python recursion. -/

def goC (disp : String → String) (childF : String → List String) :
    Nat → List String → String → List String → List String →
    List String × List String
  | 0, _, _, _, seen => ([], seen)
  | _ + 1, [], _, _, seen => ([], seen)
  | fuel + 1, c :: rest, pre, path, seen =>
    let isLast := rest.isEmpty
    let branch := if isLast then "└─ " else "├─ "
    let nextPre := pre ++ (if isLast then "   " else "│  ")
    let label := disp c
    if path.contains c then
      let r := goC disp childF fuel rest pre path seen
      ((pre ++ branch ++ label ++ " (cycle)") :: r.1, r.2)
    else if seen.contains c then
      let r := goC disp childF fuel rest pre path seen
      ((pre ++ branch ++ label ++ " (seen)") :: r.1, r.2)
    else
      let rsub := goC disp childF fuel (childF c) nextPre (c :: path) (c :: seen)
      let rrest := goC disp childF fuel rest pre path rsub.2
      ((pre ++ branch ++ label) :: (rsub.1 ++ rrest.1), rrest.2)

def headerLine : String := "Call Tree (caller -> callee)"

/-- The root loop (lines 380-388): skip roots already rendered, separate
multiple roots by a blank line unless the previous line is the header, emit
the root's label, then walk its children. -/
def rootLoop (disp : String → String) (childF : String → List String)
    (fuel : Nat) (rootsLen : Nat) :
    List String → List String → List String → List String
  | [], lines, _ => lines
  | r :: rest, lines, seen =>
    if seen.contains r then rootLoop disp childF fuel rootsLen rest lines seen
    else
      let lines₁ :=
        if rootsLen > 1 ∧ lines.getLast? ≠ some headerLine
        then lines ++ [""] else lines
      let lines₂ := lines₁ ++ [disp r]
      let res := goC disp childF fuel (childF r) "" [r] (r :: seen)
      rootLoop disp childF fuel rootsLen rest (lines₂ ++ res.1) res.2

/-- `_dot_to_call_tree`'s rendering stage, generic in the fuel. -/
def renderCore (disp : String → String) (childF : String → List String)
    (fuel : Nat) (roots : List String) : List String :=
  if roots.isEmpty then []
  else rootLoop disp childF fuel roots.length roots [headerLine] []

/-- All node ids appearing in any edge (callee before caller, per edge order),
deduplicated: the universe the traversal can reach beyond the roots. -/
def univG (edges : List (String × String)) : List String :=
  dedupF (edges.flatMap (fun e => [e.2, e.1]))

/-- Remaining traversal potential: for every universe node not yet in
`global_seen`, one step to expand it plus one step per child edge. -/
def Spot (childF : String → List String) (univ seen : List String) : Nat :=
  ((univ.filter (fun x => !seen.contains x)).map
    (fun x => 1 + (childF x).length)).sum

/-- Fuel with which the whole rendering provably stabilizes. -/
def fuelB (g : DotGraph) : Nat :=
  1 + (univG g.edges).length + Spot (sortedChildren g) (univG g.edges) []

/-- `_dot_to_call_tree` (lines 267-390) from decoded state, generic fuel. -/
def dotToCallTreeFuel (normF : String → String) (srcs : List Occ)
    (g : DotGraph) (fuel : Nat) : List String :=
  renderCore (displayLabel normF srcs g) (sortedChildren g) fuel (rootsOf g)

/-- `_dot_to_call_tree` (lines 267-390) from decoded state. -/
def dotToCallTree (normF : String → String) (srcs : List Occ)
    (g : DotGraph) : List String :=
  dotToCallTreeFuel normF srcs g (fuelB g)

theorem contains_iff_mem (l : List String) (x : String) :
    l.contains x = true ↔ x ∈ l := List.elem_iff

/-! ## Stabilization: the renderer's output is fuel-independent beyond the
bound `fuelB`, i.e. the Python `dfs` recursion terminates -/

theorem goC_seen_grow (disp : String → String) (childF : String → List String) :
    ∀ (fuel : Nat) (children : List String) (pre : String)
      (path seen : List String),
      seen ⊆ (goC disp childF fuel children pre path seen).2 := by
  intro fuel
  induction fuel with
  | zero => intro children pre path seen; simp [goC]
  | succ n ih =>
    intro children pre path seen
    cases children with
    | nil => simp [goC]
    | cons c rest =>
      simp only [goC]
      by_cases hc : path.contains c
      · simp only [hc, if_true]
        exact ih rest pre path seen
      · simp only [hc, if_false, Bool.false_eq_true]
        by_cases hs : seen.contains c
        · simp only [hs, if_true]
          exact ih rest pre path seen
        · simp only [hs, if_false, Bool.false_eq_true]
          intro x hx
          exact ih rest pre path _ (ih (childF c) _ _ (c :: seen)
            (List.mem_cons_of_mem _ hx))

theorem Spot_mono (childF : String → List String) (univ : List String) :
    ∀ (seen seen' : List String), seen ⊆ seen' →
      Spot childF univ seen' ≤ Spot childF univ seen := by
  intro seen seen' hsub
  unfold Spot
  induction univ with
  | nil => simp
  | cons u t ih =>
    cases hu : seen.contains u with
    | true =>
      have hu' : seen'.contains u = true := by
        rw [contains_iff_mem] at hu ⊢
        exact hsub hu
      simp only [List.filter_cons, hu, hu', Bool.not_true, Bool.false_eq_true,
        if_false]
      exact ih
    | false =>
      cases hu' : seen'.contains u with
      | true =>
        simp only [List.filter_cons, hu, hu', Bool.not_true, Bool.not_false,
          Bool.false_eq_true, if_false, if_true, List.map_cons, List.sum_cons]
        omega
      | false =>
        simp only [List.filter_cons, hu, hu', Bool.not_false, if_true,
          List.map_cons, List.sum_cons]
        omega

theorem Spot_cons (childF : String → List String) :
    ∀ (univ : List String) (seen : List String) (c : String),
      univ.Nodup → c ∈ univ → c ∉ seen →
      Spot childF univ (c :: seen) + (1 + (childF c).length) =
        Spot childF univ seen := by
  intro univ
  induction univ with
  | nil => intro seen c _ hc _; simp at hc
  | cons u t ih =>
    intro seen c hnd hc hcs
    rcases List.nodup_cons.mp hnd with ⟨hut, hndt⟩
    unfold Spot
    rcases List.mem_cons.mp hc with rfl | hct
    · -- head is c: dropped from the (c :: seen) filter, kept in the seen filter
      have h₁ : (c :: seen).contains c = true := by
        rw [contains_iff_mem]; exact List.mem_cons_self _ _
      have h₂ : seen.contains c = false := by
        rw [← Bool.not_eq_true, contains_iff_mem]; exact hcs
      simp only [List.filter_cons, h₁, h₂, Bool.not_true, Bool.not_false,
        Bool.false_eq_true, if_false, if_true, List.map_cons, List.sum_cons]
      have htails : List.filter (fun x => !(c :: seen).contains x) t =
          List.filter (fun x => !seen.contains x) t := by
        apply List.filter_congr
        intro x hx
        have hxc : x ≠ c := fun h => hut (h ▸ hx)
        cases hxs : seen.contains x with
        | true =>
          have hcx : (c :: seen).contains x = true := by
            rw [contains_iff_mem]
            exact List.mem_cons_of_mem _ ((contains_iff_mem _ _).mp hxs)
          rw [hcx]
        | false =>
          have hcx : (c :: seen).contains x = false := by
            rw [← Bool.not_eq_true, contains_iff_mem]
            intro hmem
            rcases List.mem_cons.mp hmem with h | h
            · exact hxc h
            · rw [← contains_iff_mem, hxs] at h
              exact Bool.noConfusion h
          rw [hcx]
      rw [htails]
      omega
    · -- head is some other node: kept or dropped identically in both filters
      have hne : u ≠ c := fun h => hut (h ▸ hct)
      have heq := ih seen c hndt hct hcs
      unfold Spot at heq
      cases hu : seen.contains u with
      | true =>
        have hu' : (c :: seen).contains u = true := by
          rw [contains_iff_mem]
          exact List.mem_cons_of_mem _ ((contains_iff_mem _ _).mp hu)
        simp only [List.filter_cons, hu, hu', Bool.not_true, Bool.false_eq_true,
          if_false]
        exact heq
      | false =>
        have hu' : (c :: seen).contains u = false := by
          rw [← Bool.not_eq_true, contains_iff_mem]
          intro hmem
          rcases List.mem_cons.mp hmem with h | h
          · exact hne h
          · rw [← contains_iff_mem, hu] at h
            exact Bool.noConfusion h
        simp only [List.filter_cons, hu, hu', Bool.not_false, if_true,
          List.map_cons, List.sum_cons]
        omega

theorem goC_stable (disp : String → String) (childF : String → List String)
    (univ : List String) (hnd : univ.Nodup)
    (hrange : ∀ n x, x ∈ childF n → x ∈ univ) :
    ∀ (fuel₁ fuel₂ : Nat) (children : List String) (pre : String)
      (path seen : List String),
      (∀ x ∈ children, x ∈ univ) →
      children.length + Spot childF univ seen < fuel₁ →
      children.length + Spot childF univ seen < fuel₂ →
      goC disp childF fuel₁ children pre path seen =
        goC disp childF fuel₂ children pre path seen := by
  intro fuel₁
  induction fuel₁ with
  | zero =>
    intro fuel₂ children pre path seen _ h₁ _
    omega
  | succ n ih =>
    intro fuel₂ children pre path seen hcs h₁ h₂
    cases fuel₂ with
    | zero => omega
    | succ m =>
      cases children with
      | nil => rfl
      | cons c rest =>
        have hrest : ∀ x ∈ rest, x ∈ univ :=
          fun x hx => hcs x (List.mem_cons_of_mem _ hx)
        simp only [List.length_cons] at h₁ h₂
        simp only [goC]
        cases hc : path.contains c with
        | true =>
          simp only [if_true]
          rw [ih m rest pre path seen hrest (by omega) (by omega)]
        | false =>
          simp only [Bool.false_eq_true, if_false]
          cases hs : seen.contains c with
          | true =>
            simp only [if_true]
            rw [ih m rest pre path seen hrest (by omega) (by omega)]
          | false =>
            simp only [Bool.false_eq_true, if_false]
            have hcu : c ∈ univ := hcs c (List.mem_cons_self _ _)
            have hcseen : c ∉ seen := by
              intro hmem
              rw [← contains_iff_mem, hs] at hmem
              exact Bool.noConfusion hmem
            have hstep := Spot_cons childF univ seen c hnd hcu hcseen
            have hsub1 : goC disp childF n (childF c)
                (pre ++ (if rest.isEmpty then "   " else "│  "))
                (c :: path) (c :: seen) =
                goC disp childF m (childF c)
                (pre ++ (if rest.isEmpty then "   " else "│  "))
                (c :: path) (c :: seen) :=
              ih m (childF c) _ (c :: path) (c :: seen)
                (fun x hx => hrange c x hx) (by omega) (by omega)
            rw [hsub1]
            have hgrow : (c :: seen) ⊆
                (goC disp childF m (childF c)
                  (pre ++ (if rest.isEmpty then "   " else "│  "))
                  (c :: path) (c :: seen)).2 :=
              goC_seen_grow disp childF m (childF c) _ (c :: path) (c :: seen)
            have hmono := Spot_mono childF univ (c :: seen) _ hgrow
            have hmono2 := Spot_mono childF univ seen (c :: seen)
              (List.subset_cons_self c seen)
            rw [ih m rest pre path _ hrest (by omega) (by omega)]

theorem rootLoop_stable (disp : String → String) (childF : String → List String)
    (univ : List String) (hnd : univ.Nodup)
    (hrange : ∀ n x, x ∈ childF n → x ∈ univ) :
    ∀ (roots : List String) (fuel₁ fuel₂ rootsLen : Nat)
      (lines seen : List String),
      (∀ r ∈ roots, (childF r).length + Spot childF univ [] < fuel₁) →
      (∀ r ∈ roots, (childF r).length + Spot childF univ [] < fuel₂) →
      rootLoop disp childF fuel₁ rootsLen roots lines seen =
        rootLoop disp childF fuel₂ rootsLen roots lines seen := by
  intro roots
  induction roots with
  | nil => intro _ _ _ _ _ _ _; rfl
  | cons r rest ih =>
    intro fuel₁ fuel₂ rootsLen lines seen hb₁ hb₂
    have hb₁' : ∀ x ∈ rest, (childF x).length + Spot childF univ [] < fuel₁ :=
      fun x hx => hb₁ x (List.mem_cons_of_mem _ hx)
    have hb₂' : ∀ x ∈ rest, (childF x).length + Spot childF univ [] < fuel₂ :=
      fun x hx => hb₂ x (List.mem_cons_of_mem _ hx)
    simp only [rootLoop]
    cases hr : seen.contains r with
    | true =>
      simp only [if_true]
      exact ih fuel₁ fuel₂ rootsLen lines seen hb₁' hb₂'
    | false =>
      simp only [Bool.false_eq_true, if_false]
      have hmono := Spot_mono childF univ [] (r :: seen) (List.nil_subset _)
      have hbr := hb₁ r (List.mem_cons_self _ _)
      have hbr₂ := hb₂ r (List.mem_cons_self _ _)
      have hgeq : goC disp childF fuel₁ (childF r) "" [r] (r :: seen) =
          goC disp childF fuel₂ (childF r) "" [r] (r :: seen) :=
        goC_stable disp childF univ hnd hrange fuel₁ fuel₂ (childF r) ""
          [r] (r :: seen) (fun x hx => hrange r x hx) (by omega) (by omega)
      rw [hgeq]
      exact ih fuel₁ fuel₂ rootsLen _ _ hb₁' hb₂'

theorem renderCore_stable (disp : String → String)
    (childF : String → List String) (univ : List String) (hnd : univ.Nodup)
    (hrange : ∀ n x, x ∈ childF n → x ∈ univ) (roots : List String)
    (fuel₁ fuel₂ : Nat)
    (hb₁ : ∀ r ∈ roots, (childF r).length + Spot childF univ [] < fuel₁)
    (hb₂ : ∀ r ∈ roots, (childF r).length + Spot childF univ [] < fuel₂) :
    renderCore disp childF fuel₁ roots = renderCore disp childF fuel₂ roots := by
  unfold renderCore
  cases roots.isEmpty
  · simp only [Bool.false_eq_true, if_false]
    exact rootLoop_stable disp childF univ hnd hrange roots fuel₁ fuel₂
      roots.length [headerLine] [] hb₁ hb₂
  · rfl

theorem sortedChildren_subset_univ (g : DotGraph) (n : String) :
    ∀ x ∈ sortedChildren g n, x ∈ univG g.edges := by
  intro x hx
  unfold sortedChildren at hx
  have hx₁ := (isort_perm (childLeB g) _).mem_iff.mp hx
  have hx₂ := (mem_dedupF _ _).mp hx₁
  unfold callsGet at hx₂
  rcases List.mem_map.mp hx₂ with ⟨e, he, hex⟩
  have he' : e ∈ g.edges := List.mem_of_mem_filter he
  unfold univG
  rw [mem_dedupF]
  apply List.mem_flatMap.mpr
  exact ⟨e, he', by rw [← hex]; exact List.mem_cons_self _ _⟩

theorem sortedChildren_nodup (g : DotGraph) (n : String) :
    (sortedChildren g n).Nodup := by
  unfold sortedChildren
  exact ((isort_perm (childLeB g) _).nodup_iff).mpr (nodup_dedupF _)

theorem sortedChildren_length_le_univ (g : DotGraph) (n : String) :
    (sortedChildren g n).length ≤ (univG g.edges).length :=
  (List.subperm_of_subset (sortedChildren_nodup g n)
    (sortedChildren_subset_univ g n)).length_le

/-- The renderer's output does not change once the fuel reaches `fuelB`:
this is termination of the Python `dfs`/root-loop recursion, for every finite
decoded graph. -/
theorem dotToCallTreeFuel_stable (normF : String → String) (srcs : List Occ)
    (g : DotGraph) (fuel : Nat) (h : fuelB g ≤ fuel) :
    dotToCallTreeFuel normF srcs g fuel = dotToCallTree normF srcs g := by
  unfold dotToCallTree dotToCallTreeFuel
  apply renderCore_stable _ _ (univG g.edges) (nodup_dedupF _)
    (fun n x hx => sortedChildren_subset_univ g n x hx)
  · intro r _
    have h₁ := sortedChildren_length_le_univ g r
    have h₂ : fuelB g = 1 + (univG g.edges).length +
        Spot (sortedChildren g) (univG g.edges) [] := rfl
    omega
  · intro r _
    have h₁ := sortedChildren_length_le_univ g r
    have h₂ : fuelB g = 1 + (univG g.edges).length +
        Spot (sortedChildren g) (univG g.edges) [] := rfl
    omega

/-! ## Claim theorems: renderer cluster -/

theorem goC_cycle_child (disp : String → String) (childF : String → List String)
    (fuel : Nat) (c : String) (rest : List String) (pre : String)
    (path seen : List String) (h : path.contains c = true) :
    goC disp childF (fuel + 1) (c :: rest) pre path seen =
      ((pre ++ (if rest.isEmpty then "└─ " else "├─ ") ++ disp c ++ " (cycle)") ::
          (goC disp childF fuel rest pre path seen).1,
        (goC disp childF fuel rest pre path seen).2) := by
  have h' : c ∈ path := (contains_iff_mem _ _).mp h
  simp [goC, h']

/-- C3: for every finite decoded graph — cyclic ones included — the renderer
terminates with finite output: the rendered line list is independent of the
fuel once it reaches the explicit bound `fuelB` (so the unbounded Python
recursion stabilizes), a child already on the current root-to-node path is
emitted as a single line with the `(cycle)` suffix and the traversal continues
with its siblings instead of recursing into it, and the self-loop graph
(A calls A) and the three-cycle graph (A→B→C→A) render as the expected finite
trees with `(cycle)` markers. -/
theorem C3_renderer_cycle_termination :
    (∀ (normF : String → String) (srcs : List Occ) (g : DotGraph) (fuel : Nat),
      fuelB g ≤ fuel →
      dotToCallTreeFuel normF srcs g fuel = dotToCallTree normF srcs g) ∧
    (∀ (disp : String → String) (childF : String → List String) (fuel : Nat)
      (c : String) (rest : List String) (pre : String) (path seen : List String),
      path.contains c = true →
      goC disp childF (fuel + 1) (c :: rest) pre path seen =
        ((pre ++ (if rest.isEmpty then "└─ " else "├─ ") ++ disp c ++
            " (cycle)") :: (goC disp childF fuel rest pre path seen).1,
          (goC disp childF fuel rest pre path seen).2)) ∧
    dotToCallTree (fun s => s) []
      { nodeFile := [("A", "")], nodeFunc := [("A", "A")],
        initialNodes := ["A"], edges := [("A", "A")] } =
      ["Call Tree (caller -> callee)", "A", "└─ A (cycle)"] ∧
    dotToCallTree (fun s => s) []
      { nodeFile := [("A", ""), ("B", ""), ("C", "")],
        nodeFunc := [("A", "A"), ("B", "B"), ("C", "C")],
        initialNodes := ["A"], edges := [("A", "B"), ("B", "C"), ("C", "A")] } =
      ["Call Tree (caller -> callee)", "A", "└─ B", "   └─ C",
        "      └─ A (cycle)"] := by
  refine ⟨dotToCallTreeFuel_stable, goC_cycle_child, by decide, by decide⟩

theorem C3_renderer_cycle_termination_witness :
    dotToCallTreeFuel (fun s => s) []
      { nodeFile := [("A", "")], nodeFunc := [("A", "A")],
        initialNodes := ["A"], edges := [("A", "A")] } 100 =
    dotToCallTree (fun s => s) []
      { nodeFile := [("A", "")], nodeFunc := [("A", "A")],
        initialNodes := ["A"], edges := [("A", "A")] } ∧
    goC (fun s => s) (fun _ => []) 1 ["A"] "" ["A"] [] =
      (["└─ A (cycle)"], []) :=
  ⟨C3_renderer_cycle_termination.1 _ _ _ 100 (by decide),
    by
      rw [C3_renderer_cycle_termination.2.1 (fun s => s) (fun _ => []) 0 "A" []
        "" ["A"] [] (by decide)]
      decide⟩

theorem goC_seen_nodup (disp : String → String) (childF : String → List String) :
    ∀ (fuel : Nat) (children : List String) (pre : String)
      (path seen : List String), seen.Nodup →
      ((goC disp childF fuel children pre path seen).2).Nodup := by
  intro fuel
  induction fuel with
  | zero => intro children pre path seen h; simpa [goC] using h
  | succ n ih =>
    intro children pre path seen h
    cases children with
    | nil => simpa [goC] using h
    | cons c rest =>
      simp only [goC]
      cases hc : path.contains c with
      | true =>
        simp only [if_true]
        exact ih rest pre path seen h
      | false =>
        simp only [Bool.false_eq_true, if_false]
        cases hs : seen.contains c with
        | true =>
          simp only [if_true]
          exact ih rest pre path seen h
        | false =>
          simp only [Bool.false_eq_true, if_false]
          have hcseen : c ∉ seen := by
            intro hmem
            rw [← contains_iff_mem, hs] at hmem
            exact Bool.noConfusion hmem
          exact ih rest pre path _
            (ih (childF c) _ (c :: path) (c :: seen)
              (List.nodup_cons.mpr ⟨hcseen, h⟩))

theorem goC_seen_child (disp : String → String) (childF : String → List String)
    (fuel : Nat) (c : String) (rest : List String) (pre : String)
    (path seen : List String) (hp : path.contains c = false)
    (hs : seen.contains c = true) :
    goC disp childF (fuel + 1) (c :: rest) pre path seen =
      ((pre ++ (if rest.isEmpty then "└─ " else "├─ ") ++ disp c ++ " (seen)") ::
          (goC disp childF fuel rest pre path seen).1,
        (goC disp childF fuel rest pre path seen).2) := by
  have hp' : c ∉ path := by
    intro hmem
    rw [← contains_iff_mem, hp] at hmem
    exact Bool.noConfusion hmem
  have hs' : c ∈ seen := (contains_iff_mem _ _).mp hs
  simp [goC, hp', hs']

/-- C5: a node already rendered anywhere (and not on the current path) is
emitted as a single line with the `(seen)` suffix and its subtree is not
expanded again; the `global_seen` collection stays duplicate-free, so every
node is expanded (entered into `global_seen`) at most once; and the diamond
graph in which two distinct callers share a callee renders the callee's
subtree exactly once, the second occurrence being a `(seen)`-marked line. -/
theorem C5_renderer_shared_callee_dedup :
    (∀ (disp : String → String) (childF : String → List String) (fuel : Nat)
      (c : String) (rest : List String) (pre : String) (path seen : List String),
      path.contains c = false → seen.contains c = true →
      goC disp childF (fuel + 1) (c :: rest) pre path seen =
        ((pre ++ (if rest.isEmpty then "└─ " else "├─ ") ++ disp c ++
            " (seen)") :: (goC disp childF fuel rest pre path seen).1,
          (goC disp childF fuel rest pre path seen).2)) ∧
    (∀ (disp : String → String) (childF : String → List String) (fuel : Nat)
      (children : List String) (pre : String) (path seen : List String),
      seen.Nodup → ((goC disp childF fuel children pre path seen).2).Nodup) ∧
    dotToCallTree (fun s => s) []
      { nodeFile := [("A", ""), ("B", ""), ("C", ""), ("D", ""), ("E", "")],
        nodeFunc := [("A", "a"), ("B", "b"), ("C", "c"), ("D", "d"), ("E", "e")],
        initialNodes := ["A"],
        edges := [("A", "B"), ("A", "C"), ("B", "D"), ("C", "D"), ("D", "E")] } =
      ["Call Tree (caller -> callee)", "a", "├─ b", "│  └─ d", "│     └─ e",
        "└─ c", "   └─ d (seen)"] := by
  refine ⟨goC_seen_child, goC_seen_nodup, by decide⟩

theorem C5_renderer_shared_callee_dedup_witness :
    goC (fun s => s) (fun _ => []) 1 ["B"] "" ["A"] ["B"] =
      (["└─ B (seen)"], ["B"]) ∧
    ((goC (fun s => s) (fun _ => ["X"]) 3 ["X"] "" ["A"] ["A"]).2).Nodup :=
  ⟨by
    rw [C5_renderer_shared_callee_dedup.1 (fun s => s) (fun _ => []) 0 "B" []
      "" ["A"] ["B"] (by decide) (by decide)]
    decide,
    C5_renderer_shared_callee_dedup.2.1 (fun s => s) (fun _ => ["X"]) 3 ["X"]
      "" ["A"] ["A"] (by decide)⟩

/-- C4: the renderer's root set is the flagged root-candidate list when
non-empty; otherwise it is the in-degree-zero nodes of the decoded in-degree
map, in sorted (hence deterministic) order; and when the root set is empty —
in particular for the graph with zero nodes and zero edges — the rendered
output is the empty sequence, with no header line. -/
theorem C4_renderer_roots_and_empty :
    (∀ g : DotGraph, g.initialNodes ≠ [] → rootsOf g = g.initialNodes) ∧
    (∀ g : DotGraph, g.initialNodes = [] →
      rootsOf g =
        isort strLeB
          ((indegKeys g.edges).filter (fun n => indegOf g.edges n == 0)) ∧
      (rootsOf g).Pairwise (fun x y => strLeB x y = true)) ∧
    (∀ (normF : String → String) (srcs : List Occ) (g : DotGraph),
      rootsOf g = [] → dotToCallTree normF srcs g = []) ∧
    dotToCallTree (fun s => s) []
      { nodeFile := [], nodeFunc := [], initialNodes := [], edges := [] } = [] := by
  refine ⟨?_, ?_, ?_, by decide⟩
  · intro g h
    unfold rootsOf
    rw [if_neg (by simpa [List.isEmpty_iff] using h)]
  · intro g h
    unfold rootsOf
    rw [if_pos (by simpa [List.isEmpty_iff] using h)]
    exact ⟨rfl, pairwise_isort strLeB strLeB_total strLeB_trans _⟩
  · intro normF srcs g h
    unfold dotToCallTree dotToCallTreeFuel renderCore
    rw [h]
    rfl

theorem C4_renderer_roots_and_empty_witness :
    rootsOf
      { nodeFile := [], nodeFunc := [], initialNodes := ["R"],
        edges := [] } = ["R"] ∧
    rootsOf
      { nodeFile := [], nodeFunc := [], initialNodes := [],
        edges := [("b", "a"), ("c", "a")] } = ["b", "c"] ∧
    dotToCallTree (fun s => s) []
      { nodeFile := [], nodeFunc := [], initialNodes := [],
        edges := [("x", "x")] } = [] :=
  ⟨C4_renderer_roots_and_empty.1 _ (by decide),
    by
      have h := (C4_renderer_roots_and_empty.2.1
        { nodeFile := [], nodeFunc := [], initialNodes := [],
          edges := [("b", "a"), ("c", "a")] } rfl).1
      rw [h]
      decide,
    C4_renderer_roots_and_empty.2.2.1 (fun s => s) []
      { nodeFile := [], nodeFunc := [], initialNodes := [],
        edges := [("x", "x")] } (by decide)⟩

/-! ## Permutation and duplicate-edge lemmas for determinism claims -/

theorem dedupF_perm {α : Type} [DecidableEq α] (l₁ l₂ : List α)
    (h : l₁.Perm l₂) : (dedupF l₁).Perm (dedupF l₂) := by
  rw [List.perm_ext_iff_of_nodup (nodup_dedupF l₁) (nodup_dedupF l₂)]
  intro a
  rw [mem_dedupF, mem_dedupF]
  exact h.mem_iff

theorem dedupFAux_congr {α : Type} [DecidableEq α] :
    ∀ (l seen₁ seen₂ : List α),
      (∀ x ∈ l, (x ∈ seen₁ ↔ x ∈ seen₂)) →
      dedupFAux seen₁ l = dedupFAux seen₂ l := by
  intro l
  induction l with
  | nil => intro seen₁ seen₂ _; rfl
  | cons a t ih =>
    intro seen₁ seen₂ hiff
    have ha := hiff a (List.mem_cons_self _ _)
    by_cases h₁ : a ∈ seen₁
    · rw [show dedupFAux seen₁ (a :: t) = dedupFAux seen₁ t from by
          simp [dedupFAux, h₁],
        show dedupFAux seen₂ (a :: t) = dedupFAux seen₂ t from by
          simp [dedupFAux, ha.mp h₁]]
      exact ih seen₁ seen₂ (fun x hx => hiff x (List.mem_cons_of_mem _ hx))
    · have h₂ : a ∉ seen₂ := fun h => h₁ (ha.mpr h)
      rw [show dedupFAux seen₁ (a :: t) = a :: dedupFAux (a :: seen₁) t from by
          simp [dedupFAux, h₁],
        show dedupFAux seen₂ (a :: t) = a :: dedupFAux (a :: seen₂) t from by
          simp [dedupFAux, h₂]]
      congr 1
      refine ih (a :: seen₁) (a :: seen₂) ?_
      intro x hx
      constructor
      · intro hm
        rcases List.mem_cons.mp hm with rfl | hm'
        · exact List.mem_cons_self _ _
        · exact List.mem_cons_of_mem _ ((hiff x (List.mem_cons_of_mem _ hx)).mp hm')
      · intro hm
        rcases List.mem_cons.mp hm with rfl | hm'
        · exact List.mem_cons_self _ _
        · exact List.mem_cons_of_mem _ ((hiff x (List.mem_cons_of_mem _ hx)).mpr hm')

theorem dedupFAux_cons_not_mem {α : Type} [DecidableEq α] (a : α)
    (l seen : List α) (h : a ∉ l) :
    dedupFAux (a :: seen) l = dedupFAux seen l := by
  apply dedupFAux_congr
  intro x hx
  have : x ≠ a := fun he => h (he ▸ hx)
  constructor
  · intro hm
    rcases List.mem_cons.mp hm with h' | h'
    · exact absurd h' this
    · exact h'
  · exact List.mem_cons_of_mem _

theorem filter_dedupFAux {α : Type} [DecidableEq α] (p : α → Bool) :
    ∀ (l seen : List α),
      (dedupFAux seen l).filter p = dedupFAux seen (l.filter p) := by
  intro l
  induction l with
  | nil => intro seen; rfl
  | cons b t ih =>
    intro seen
    by_cases hb : b ∈ seen
    · rw [show dedupFAux seen (b :: t) = dedupFAux seen t from by
          simp [dedupFAux, hb]]
      cases hp : p b with
      | true =>
        rw [show (b :: t).filter p = b :: t.filter p from by simp [hp],
          show dedupFAux seen (b :: t.filter p) = dedupFAux seen (t.filter p)
            from by simp [dedupFAux, hb]]
        exact ih seen
      | false =>
        rw [show (b :: t).filter p = t.filter p from by simp [hp]]
        exact ih seen
    · rw [show dedupFAux seen (b :: t) = b :: dedupFAux (b :: seen) t from by
          simp [dedupFAux, hb]]
      cases hp : p b with
      | true =>
        rw [show (b :: dedupFAux (b :: seen) t).filter p =
              b :: (dedupFAux (b :: seen) t).filter p from by simp [hp],
          show (b :: t).filter p = b :: t.filter p from by simp [hp],
          show dedupFAux seen (b :: t.filter p) =
              b :: dedupFAux (b :: seen) (t.filter p) from by
            simp [dedupFAux, hb]]
        congr 1
        exact ih (b :: seen)
      | false =>
        rw [show (b :: dedupFAux (b :: seen) t).filter p =
              (dedupFAux (b :: seen) t).filter p from by simp [hp],
          show (b :: t).filter p = t.filter p from by simp [hp],
          ih (b :: seen)]
        apply dedupFAux_cons_not_mem
        intro hmem
        have := (List.mem_filter.mp hmem).2
        rw [hp] at this
        exact Bool.noConfusion this

theorem filter_dedupF {α : Type} [DecidableEq α] (p : α → Bool) (l : List α) :
    (dedupF l).filter p = dedupF (l.filter p) := filter_dedupFAux p l []

theorem map_snd_dedupFAux (n : String) :
    ∀ (l seenP : List (String × String)),
      (∀ x ∈ l, x.1 = n) → (∀ x ∈ seenP, x.1 = n) →
      (dedupFAux seenP l).map Prod.snd =
        dedupFAux (seenP.map Prod.snd) (l.map Prod.snd) := by
  intro l
  induction l with
  | nil => intro seenP _ _; rfl
  | cons b t ih =>
    intro seenP hl hs
    have hb1 : b.1 = n := hl b (List.mem_cons_self _ _)
    have hmemiff : b ∈ seenP ↔ b.2 ∈ seenP.map Prod.snd := by
      constructor
      · intro h
        exact List.mem_map.mpr ⟨b, h, rfl⟩
      · intro h
        rcases List.mem_map.mp h with ⟨c, hc, hcb⟩
        have hc1 : c.1 = n := hs c hc
        have : c = b := Prod.ext (hc1.trans hb1.symm) hcb
        exact this ▸ hc
    by_cases hb : b ∈ seenP
    · rw [show dedupFAux seenP (b :: t) = dedupFAux seenP t from by
          simp [dedupFAux, hb],
        show (b :: t).map Prod.snd = b.2 :: t.map Prod.snd from rfl,
        show dedupFAux (seenP.map Prod.snd) (b.2 :: t.map Prod.snd) =
            dedupFAux (seenP.map Prod.snd) (t.map Prod.snd) from by
          simp [dedupFAux, hmemiff.mp hb]]
      exact ih seenP (fun x hx => hl x (List.mem_cons_of_mem _ hx)) hs
    · have hb2 : b.2 ∉ seenP.map Prod.snd := fun h => hb (hmemiff.mpr h)
      rw [show dedupFAux seenP (b :: t) = b :: dedupFAux (b :: seenP) t from by
          simp [dedupFAux, hb],
        show (b :: t).map Prod.snd = b.2 :: t.map Prod.snd from rfl,
        show dedupFAux (seenP.map Prod.snd) (b.2 :: t.map Prod.snd) =
            b.2 :: dedupFAux (b.2 :: seenP.map Prod.snd) (t.map Prod.snd) from by
          simp [dedupFAux, hb2],
        show (b :: dedupFAux (b :: seenP) t).map Prod.snd =
            b.2 :: (dedupFAux (b :: seenP) t).map Prod.snd from rfl]
      congr 1
      have := ih (b :: seenP) (fun x hx => hl x (List.mem_cons_of_mem _ hx))
        (by
          intro x hx
          rcases List.mem_cons.mp hx with rfl | hx'
          · exact hb1
          · exact hs x hx')
      rw [this]
      rfl

theorem dedupFAux_eq_self {α : Type} [DecidableEq α] :
    ∀ (l seen : List α), l.Nodup → (∀ x ∈ l, x ∉ seen) →
      dedupFAux seen l = l := by
  intro l
  induction l with
  | nil => intro seen _ _; rfl
  | cons a t ih =>
    intro seen hnd hdisj
    rcases List.nodup_cons.mp hnd with ⟨hat, hndt⟩
    rw [show dedupFAux seen (a :: t) = a :: dedupFAux (a :: seen) t from by
        simp [dedupFAux, hdisj a (List.mem_cons_self _ _)]]
    congr 1
    refine ih (a :: seen) hndt ?_
    intro x hx hc
    rcases List.mem_cons.mp hc with rfl | hc'
    · exact hat hx
    · exact hdisj x (List.mem_cons_of_mem _ hx) hc'

theorem dedupF_idem {α : Type} [DecidableEq α] (l : List α) :
    dedupF (dedupF l) = dedupF l :=
  dedupFAux_eq_self (dedupF l) [] (nodup_dedupF l)
    (fun x _ h => List.not_mem_nil x h)

theorem isort_eq_of_perm {α : Type} (le : α → α → Bool)
    (htot : ∀ a b, le a b = true ∨ le b a = true)
    (htrans : ∀ a b c, le a b = true → le b c = true → le a c = true)
    (l₁ l₂ : List α)
    (hanti : ∀ a b, a ∈ l₁ → b ∈ l₁ → le a b = true → le b a = true → a = b)
    (hperm : l₁.Perm l₂) :
    isort le l₁ = isort le l₂ := by
  apply eq_of_perm_of_pairwise le
  · intro a b ha hb
    exact hanti a b ((isort_perm le l₁).mem_iff.mp ha)
      ((isort_perm le l₁).mem_iff.mp hb)
  · exact (isort_perm le l₁).trans (hperm.trans (isort_perm le l₂).symm)
  · exact pairwise_isort le htot htrans l₁
  · exact pairwise_isort le htot htrans l₂

theorem Spot_nil (childF : String → List String) (univ : List String) :
    Spot childF univ [] = (univ.map (fun x => 1 + (childF x).length)).sum := by
  unfold Spot
  congr 1
  apply congrArg
  apply List.filter_eq_self.mpr
  intro x _
  rfl

theorem callsGet_dedupF (edges : List (String × String)) (n : String) :
    callsGet (dedupF edges) n = dedupF (callsGet edges n) := by
  unfold callsGet
  rw [show (dedupF edges).filter (fun e => e.1 = n) =
      dedupF (edges.filter (fun e => e.1 = n)) from
    filter_dedupF (fun e => decide (e.1 = n)) edges]
  have hmap := map_snd_dedupFAux n (edges.filter (fun e => e.1 = n)) []
    (fun x hx => of_decide_eq_true (List.mem_filter.mp hx).2)
    (fun x hx => absurd hx (List.not_mem_nil x))
  simpa [dedupF] using hmap

theorem indegOf_dedupF_zero_iff (edges : List (String × String)) (n : String) :
    (indegOf (dedupF edges) n = 0) ↔ (indegOf edges n = 0) := by
  unfold indegOf
  rw [List.countP_eq_zero, List.countP_eq_zero]
  constructor
  · intro h e he
    exact h e ((mem_dedupF e edges).mpr he)
  · intro h e he
    exact h e ((mem_dedupF e edges).mp he)

theorem indegKeys_dedupF_perm (edges : List (String × String)) :
    (indegKeys (dedupF edges)).Perm (indegKeys edges) := by
  unfold indegKeys
  rw [List.perm_ext_iff_of_nodup (nodup_dedupF _) (nodup_dedupF _)]
  intro a
  rw [mem_dedupF, mem_dedupF]
  constructor
  · intro h
    rcases List.mem_flatMap.mp h with ⟨e, he, hae⟩
    exact List.mem_flatMap.mpr ⟨e, (mem_dedupF e edges).mp he, hae⟩
  · intro h
    rcases List.mem_flatMap.mp h with ⟨e, he, hae⟩
    exact List.mem_flatMap.mpr ⟨e, (mem_dedupF e edges).mpr he, hae⟩

theorem zeroIndeg_dedupF (edges : List (String × String)) :
    zeroIndeg (dedupF edges) = zeroIndeg edges := by
  unfold zeroIndeg
  have hpred : (fun n => indegOf (dedupF edges) n == 0) =
      (fun n => indegOf edges n == 0) := by
    funext n
    by_cases h : indegOf edges n = 0
    · rw [beq_iff_eq.mpr h, beq_iff_eq.mpr ((indegOf_dedupF_zero_iff edges n).mpr h)]
    · have h' : ¬ indegOf (dedupF edges) n = 0 :=
        fun hc => h ((indegOf_dedupF_zero_iff edges n).mp hc)
      rw [Bool.eq_iff_iff, beq_iff_eq, beq_iff_eq]
      exact iff_of_false h' h
  rw [hpred]
  exact isort_eq_of_perm strLeB strLeB_total strLeB_trans _ _
    (fun a b _ _ => strLeB_antisymm a b)
    ((indegKeys_dedupF_perm edges).filter _)

theorem univG_dedupF_perm (edges : List (String × String)) :
    (univG (dedupF edges)).Perm (univG edges) := indegKeys_dedupF_perm edges

/-- C6: duplicate edges between the same ordered caller/callee pair never
multiply tree output: rendering over the raw edge multiset equals rendering
over the keep-first deduplicated edge list, for every decoded graph. -/
theorem C6_duplicate_edges_render_eq (normF : String → String)
    (srcs : List Occ) (nf nfl : List (String × String)) (init : List String)
    (edges : List (String × String)) :
    dotToCallTree normF srcs
      { nodeFile := nf, nodeFunc := nfl, initialNodes := init, edges := edges } =
    dotToCallTree normF srcs
      { nodeFile := nf, nodeFunc := nfl, initialNodes := init,
        edges := dedupF edges } := by
  have hchild : sortedChildren
      { nodeFile := nf, nodeFunc := nfl, initialNodes := init,
        edges := dedupF edges } =
      sortedChildren
      { nodeFile := nf, nodeFunc := nfl, initialNodes := init,
        edges := edges } := by
    funext n
    show isort _ (dedupF (callsGet (dedupF edges) n)) =
      isort _ (dedupF (callsGet edges n))
    rw [callsGet_dedupF, dedupF_idem]
    rfl
  have hroots : rootsOf
      { nodeFile := nf, nodeFunc := nfl, initialNodes := init,
        edges := dedupF edges } =
      rootsOf
      { nodeFile := nf, nodeFunc := nfl, initialNodes := init,
        edges := edges } := by
    unfold rootsOf
    cases init.isEmpty
    · rfl
    · simp only [if_true]
      exact zeroIndeg_dedupF edges
  have hfuel : fuelB
      { nodeFile := nf, nodeFunc := nfl, initialNodes := init,
        edges := dedupF edges } =
      fuelB
      { nodeFile := nf, nodeFunc := nfl, initialNodes := init,
        edges := edges } := by
    unfold fuelB
    rw [hchild]
    rw [(univG_dedupF_perm edges).length_eq]
    congr 1
    rw [Spot_nil, Spot_nil]
    exact ((univG_dedupF_perm edges).map _).sum_eq
  unfold dotToCallTree dotToCallTreeFuel
  rw [hchild, hroots, hfuel]
  rfl

theorem childLeB_total (g : DotGraph) (a b : String) :
    childLeB g a b = true ∨ childLeB g b a = true :=
  pairLeB_total (childKey g a) (childKey g b)

theorem childLeB_trans (g : DotGraph) (a b c : String) :
    childLeB g a b = true → childLeB g b c = true → childLeB g a c = true :=
  pairLeB_trans (childKey g a) (childKey g b) (childKey g c)

theorem indegKeys_perm (e₁ e₂ : List (String × String)) (h : e₁.Perm e₂) :
    (indegKeys e₁).Perm (indegKeys e₂) := by
  unfold indegKeys
  rw [List.perm_ext_iff_of_nodup (nodup_dedupF _) (nodup_dedupF _)]
  intro a
  rw [mem_dedupF, mem_dedupF]
  constructor
  · intro hm
    rcases List.mem_flatMap.mp hm with ⟨e, he, hae⟩
    exact List.mem_flatMap.mpr ⟨e, h.mem_iff.mp he, hae⟩
  · intro hm
    rcases List.mem_flatMap.mp hm with ⟨e, he, hae⟩
    exact List.mem_flatMap.mpr ⟨e, h.mem_iff.mpr he, hae⟩

theorem zeroIndeg_perm (e₁ e₂ : List (String × String)) (h : e₁.Perm e₂) :
    zeroIndeg e₁ = zeroIndeg e₂ := by
  unfold zeroIndeg
  have hpred : (fun n => indegOf e₁ n == 0) = (fun n => indegOf e₂ n == 0) := by
    funext n
    unfold indegOf
    rw [h.countP_eq]
  rw [hpred]
  exact isort_eq_of_perm strLeB strLeB_total strLeB_trans _ _
    (fun a b _ _ => strLeB_antisymm a b)
    ((indegKeys_perm e₁ e₂ h).filter _)

/-- C2 amended: for fixed decoded nodes and labels, the rendered tree is
byte-identical across edge orderings PROVIDED no two distinct node ids in the
edge universe share the same `(function_name, file_label)` sort key.  (The
unqualified claim is false: see the counterexample theorem.) -/
theorem C2_renderer_determinism_amended (normF : String → String)
    (srcs : List Occ) (nf nfl : List (String × String)) (init : List String)
    (e₁ e₂ : List (String × String)) (hperm : e₁.Perm e₂)
    (hinj : ∀ x ∈ univG e₁, ∀ y ∈ univG e₁,
      childKey ⟨nf, nfl, init, e₁⟩ x = childKey ⟨nf, nfl, init, e₁⟩ y → x = y) :
    dotToCallTree normF srcs ⟨nf, nfl, init, e₁⟩ =
    dotToCallTree normF srcs ⟨nf, nfl, init, e₂⟩ := by
  have huniv : ∀ x ∈ univG e₂, x ∈ univG e₁ := by
    intro x hx
    unfold univG at hx ⊢
    rw [mem_dedupF] at hx ⊢
    rcases List.mem_flatMap.mp hx with ⟨e, he, hae⟩
    exact List.mem_flatMap.mpr ⟨e, hperm.mem_iff.mpr he, hae⟩
  have hchild : sortedChildren ⟨nf, nfl, init, e₂⟩ =
      sortedChildren ⟨nf, nfl, init, e₁⟩ := by
    funext n
    show isort (childLeB ⟨nf, nfl, init, e₁⟩) (dedupF (callsGet e₂ n)) =
      isort (childLeB ⟨nf, nfl, init, e₁⟩) (dedupF (callsGet e₁ n))
    apply isort_eq_of_perm _ (childLeB_total _) (childLeB_trans _)
    · intro a b ha hb hab hba
      have hmem : ∀ x, x ∈ dedupF (callsGet e₂ n) → x ∈ univG e₁ := by
        intro x hx
        apply huniv
        rw [mem_dedupF] at hx
        unfold callsGet at hx
        rcases List.mem_map.mp hx with ⟨e, he, hex⟩
        unfold univG
        rw [mem_dedupF]
        exact List.mem_flatMap.mpr ⟨e, List.mem_of_mem_filter he,
          by rw [← hex]; exact List.mem_cons_self _ _⟩
      exact hinj a (hmem a ha) b (hmem b hb) (pairLeB_antisymm _ _ hab hba)
    · apply dedupF_perm
      unfold callsGet
      exact (hperm.symm.filter _).map _
  have hroots : rootsOf ⟨nf, nfl, init, e₂⟩ = rootsOf ⟨nf, nfl, init, e₁⟩ := by
    unfold rootsOf
    cases init.isEmpty
    · rfl
    · simp only [if_true]
      exact zeroIndeg_perm e₂ e₁ hperm.symm
  have hfuel : fuelB ⟨nf, nfl, init, e₂⟩ = fuelB ⟨nf, nfl, init, e₁⟩ := by
    have hup : (univG e₂).Perm (univG e₁) := by
      unfold univG
      rw [List.perm_ext_iff_of_nodup (nodup_dedupF _) (nodup_dedupF _)]
      intro a
      constructor
      · exact huniv a
      · intro ha
        rw [mem_dedupF] at ha ⊢
        rcases List.mem_flatMap.mp ha with ⟨e, he, hae⟩
        exact List.mem_flatMap.mpr ⟨e, hperm.mem_iff.mp he, hae⟩
    unfold fuelB
    rw [hchild, hup.length_eq]
    congr 1
    rw [Spot_nil, Spot_nil]
    exact (hup.map _).sum_eq
  unfold dotToCallTree dotToCallTreeFuel
  rw [hchild, hroots, hfuel]
  rfl

/-- C2 counterexample: with two distinct children sharing the sort key
`("x", "f")`, supplying the edges in a different order changes the rendered
byte sequence, so the claim as stated (determinism for EVERY fixed decoded
node/label/edge set under edge reordering) is false on the code. -/
theorem C2_renderer_determinism_counterexample :
    List.Perm [(("A" : String), ("B" : String)), ("A", "C"), ("B", "D")]
      [("A", "C"), ("A", "B"), ("B", "D")] ∧
    dotToCallTree (fun s => s) []
      ⟨[("A", ""), ("B", "f"), ("C", "f"), ("D", "")],
        [("A", "a"), ("B", "x"), ("C", "x"), ("D", "d")], ["A"],
        [("A", "B"), ("A", "C"), ("B", "D")]⟩ ≠
    dotToCallTree (fun s => s) []
      ⟨[("A", ""), ("B", "f"), ("C", "f"), ("D", "")],
        [("A", "a"), ("B", "x"), ("C", "x"), ("D", "d")], ["A"],
        [("A", "C"), ("A", "B"), ("B", "D")]⟩ :=
  ⟨List.Perm.swap ("A", "C") ("A", "B") [("B", "D")], by decide⟩

theorem C2_renderer_determinism_amended_witness :
    dotToCallTree (fun s => s) []
      ⟨[("A", ""), ("B", "f"), ("C", "g"), ("D", "")],
        [("A", "a"), ("B", "x"), ("C", "x"), ("D", "d")], ["A"],
        [("A", "B"), ("A", "C"), ("B", "D")]⟩ =
    dotToCallTree (fun s => s) []
      ⟨[("A", ""), ("B", "f"), ("C", "g"), ("D", "")],
        [("A", "a"), ("B", "x"), ("C", "x"), ("D", "d")], ["A"],
        [("A", "C"), ("A", "B"), ("B", "D")]⟩ :=
  C2_renderer_determinism_amended (fun s => s) []
    [("A", ""), ("B", "f"), ("C", "g"), ("D", "")]
    [("A", "a"), ("B", "x"), ("C", "x"), ("D", "d")] ["A"]
    [("A", "B"), ("A", "C"), ("B", "D")] [("A", "C"), ("A", "B"), ("B", "D")]
    (List.Perm.swap ("A", "C") ("A", "B") [("B", "D")]) (by decide)

/-- The Label Reconciler resolution order as the claim states it: (1) an exact
`(normalized relative path, function)` hit in the exact index when the file
label contains a path separator; (2) otherwise the single basename-index
candidate, only when exactly one exists; (3) otherwise
`func (normalized)`, else `func (raw label)`, else the bare function name. -/
def displayLabelSpec (normF : String → String) (srcs : List Occ) (g : DotGraph)
    (nodeId : String) : String :=
  let func := dictGetD g.nodeFunc nodeId nodeId
  let fl := dictGetD g.nodeFile nodeId ""
  if fl ≠ "" ∧ hasSep fl = true ∧ (relIndex srcs (normF fl) func).isSome then
    func ++ " (" ++ (relIndex srcs (normF fl) func).getD "" ++ ")"
  else if fl ≠ "" ∧ (baseCandidates srcs (pathBasename fl) func).length = 1 then
    func ++ " (" ++ (baseCandidates srcs (pathBasename fl) func).headD "" ++ ")"
  else if fl ≠ "" ∧ hasSep fl = true ∧ normF fl ≠ "" then
    func ++ " (" ++ normF fl ++ ")"
  else if fl ≠ "" then func ++ " (" ++ fl ++ ")"
  else func

theorem displayLabel_eq_spec (normF : String → String) (srcs : List Occ)
    (g : DotGraph) (nodeId : String) :
    displayLabel normF srcs g nodeId = displayLabelSpec normF srcs g nodeId := by
  unfold displayLabel displayLabelSpec
  set func := dictGetD g.nodeFunc nodeId nodeId with hfunc
  set fl := dictGetD g.nodeFile nodeId "" with hfl
  by_cases h₁ : fl ≠ "" ∧ hasSep fl = true
  · cases hrel : relIndex srcs (normF fl) func with
    | some s => simp [h₁, h₁.1, h₁.2, hrel]
    | none =>
      by_cases h₂ : (baseCandidates srcs (pathBasename fl) func).length = 1
      · cases hcs : baseCandidates srcs (pathBasename fl) func with
        | nil => rw [hcs] at h₂; simp at h₂
        | cons c rest =>
          rw [hcs] at h₂
          simp only [List.length_cons] at h₂
          have hrest : rest = [] := List.length_eq_zero.mp (by omega)
          subst hrest
          simp [h₁, h₁.1, h₁.2, hrel, hcs]
      · by_cases h₃ : normF fl ≠ ""
        · simp [h₁, h₁.1, h₁.2, hrel, h₂, h₃]
        · simp [h₁, h₁.1, h₁.2, hrel, h₂, h₃]
  · have h₁' : fl = "" ∨ hasSep fl = false := by
      by_cases hfl0 : fl = ""
      · exact Or.inl hfl0
      · right
        cases hv : hasSep fl
        · rfl
        · exact absurd ⟨hfl0, hv⟩ h₁
    by_cases h₂ : fl ≠ ""
    · have hsep : hasSep fl = false := by
        rcases h₁' with h | h
        · exact absurd h h₂
        · exact h
      by_cases h₃ : (baseCandidates srcs (pathBasename fl) func).length = 1
      · cases hcs : baseCandidates srcs (pathBasename fl) func with
        | nil => rw [hcs] at h₃; simp at h₃
        | cons c rest =>
          rw [hcs] at h₃
          simp only [List.length_cons] at h₃
          have hrest : rest = [] := List.length_eq_zero.mp (by omega)
          subst hrest
          simp [h₂, hsep, hcs]
      · simp [h₂, hsep, h₃]
    · have hfl0 : fl = "" := by
        by_cases h : fl = ""
        · exact h
        · exact absurd h h₂
      simp [hfl0]

/-- C1: `display_label` resolves a node's displayed location in the claimed
strict three-tier order — exact `(normalized relative path, function)` index
hit when the file label has a path separator; else the basename index used
only when it holds exactly one candidate (two or more are never picked from);
else the `func (normalized)` / `func (raw label)` / bare-`func` fallbacks.
Moreover the claim's two concrete scenarios hold: an exact subset-listing hit
renders `foo (src/a.py:12)`, and an ambiguous basename with two candidates
falls back to `foo (a.py)` without picking a line number. -/
theorem C1_label_reconciler_tiers :
    (∀ (normF : String → String) (srcs : List Occ) (g : DotGraph)
      (nodeId : String),
      displayLabel normF srcs g nodeId = displayLabelSpec normF srcs g nodeId) ∧
    displayLabel (fun s => s) [⟨"src/a.py", "12", "foo"⟩]
      ⟨[("N", "src/a.py")], [("N", "foo")], [], []⟩ "N" =
      "foo (src/a.py:12)" ∧
    displayLabel (fun s => s) [⟨"x/a.py", "1", "foo"⟩, ⟨"y/a.py", "2", "foo"⟩]
      ⟨[("N", "a.py")], [("N", "foo")], [], []⟩ "N" = "foo (a.py)" :=
  ⟨displayLabel_eq_spec, by decide, by decide⟩

/-! ## The Selector Resolver (`_start_selector` lines 197-230 and
`_normalize_start` lines 145-159, §4.1)

The generated selector is a regular expression consisting solely of the
anchors `\A`/`\z` and escaped/plain literal characters, so its matching
semantics is embedded exactly: `anchoredMatches` decodes the literal between
the anchors and compares.  Filesystem existence (`candidate.exists()`) and the
`resolve().relative_to()` call of the absolute-path branch are abstracted as
parameters. -/

def isWsChar (c : Char) : Bool :=
  c = ' ' || c = '\t' || c = '\n' || c = '\r' || c = '\x0b' || c = '\x0c'

def trimC (l : List Char) : List Char :=
  ((l.dropWhile isWsChar).reverse.dropWhile isWsChar).reverse

/-- Python `str.strip()` (ASCII whitespace). -/
def strTrim (s : String) : String := String.mk (trimC s.data)

def isIdentStart (c : Char) : Bool :=
  (65 ≤ c.toNat && c.toNat ≤ 90) || (97 ≤ c.toNat && c.toNat ≤ 122) || c = '_'

def isIdentChar (c : Char) : Bool :=
  isIdentStart c || (48 ≤ c.toNat && c.toNat ≤ 57)

def stripPref : List Char → List Char → Option (List Char)
  | [], l => some l
  | _ :: _, [] => none
  | k :: ks, c :: cs => if c = k then stripPref ks cs else none

/-- Try to match `<kw>\s+([A-Za-z_][A-Za-z0-9_]*)` at the head of `l`,
returning the captured identifier. -/
def matchKwIdent (kw : List Char) (l : List Char) : Option (List Char) :=
  match stripPref kw l with
  | none => none
  | some r =>
    let r₁ := r.dropWhile isWsChar
    if r₁.length < r.length then
      match r₁ with
      | c :: rest =>
        if isIdentStart c then some (c :: rest.takeWhile isIdentChar) else none
      | [] => none
    else none

/-- Leftmost search for `\b<kw>\s+<identifier>`; the Boolean tracks whether the
previous character was a word character (which defeats the `\b` boundary). -/
def findKwIdentAux (kw : List Char) : List Char → Bool → Option (List Char)
  | [], _ => none
  | c :: r, prevWord =>
    if prevWord then findKwIdentAux kw r (isIdentChar c)
    else
      match matchKwIdent kw (c :: r) with
      | some ident => some ident
      | none => findKwIdentAux kw r (isIdentChar c)

def findKwIdent (kw : List Char) (l : List Char) : Option (List Char) :=
  findKwIdentAux kw l false

/-- `_normalize_start` (lines 145-159). -/
def normalizeStart (raw : String) : String :=
  let r := strTrim raw
  if r.data.isEmpty then r
  else if r.data.any isWsChar then
    match findKwIdent ['f', 'n'] r.data with
    | some ident => String.mk ident
    | none =>
      match findKwIdent ['d', 'e', 'f'] r.data with
      | some ident => String.mk ident
      | none => r
  else r

def rfindDotAux : List Char → Nat → Option Nat → Option Nat
  | [], _, acc => acc
  | c :: r, i, acc => rfindDotAux r (i + 1) (if c = '.' then some i else acc)

/-- `Path(p).suffix`: the extension of the final component (empty for hidden
files and trailing dots, per pathlib's rule `0 < i < len(name) - 1`). -/
def pathSuffix (s : String) : String :=
  let name := (pathBasename s).data
  match rfindDotAux name 0 none with
  | some i => if 0 < i ∧ i < name.length - 1 then String.mk (name.drop i) else ""
  | none => ""

def splitFirstColon : List Char → Option (List Char × List Char)
  | [] => none
  | c :: r =>
    if c = ':' then some ([], r)
    else (splitFirstColon r).map (fun p => (c :: p.1, p.2))

/-- The characters Python's `re.escape` escapes. -/
def reSpecial (c : Char) : Bool :=
  c = '(' || c = ')' || c = '[' || c = ']' || c = '\x7b' || c = '\x7d' ||
  c = '?' || c = '*' || c = '+' || c = '-' || c = '|' || c = '^' || c = '$' ||
  c = '\\' || c = '.' || c = '&' || c = '~' || c = '#' || c = ' ' ||
  c = '\t' || c = '\n' || c = '\r' || c = '\x0b' || c = '\x0c'

def reEscapeC : List Char → List Char
  | [] => []
  | c :: r => if reSpecial c then '\\' :: c :: reEscapeC r else c :: reEscapeC r

/-- `re.escape`. -/
def reEscape (s : String) : String := String.mk (reEscapeC s.data)

def joinPath (folder rel : String) : String := folder ++ "/" ++ rel

/-- `_start_selector` (lines 197-230).  `ex` models `candidate.exists()`;
`relToF` models the `resolve().relative_to()` attempt of the absolute-path
branch (`none` = the `except` fallback). -/
def startSelector (folder : String) (ex : String → Bool)
    (relToF : String → String → Option String) (raw : String) :
    String × String :=
  let r := strTrim raw
  if r.data.isEmpty then (r, r)
  else
    match splitFirstColon r.data with
    | some (mf, mfs) =>
      let maybeFile := strTrim (String.mk mf)
      let maybeFuncSpec := strTrim (String.mk mfs)
      let isAbs : Bool := match maybeFile.data with
        | '/' :: _ => true
        | _ => false
      let candidate := if isAbs then maybeFile else joinPath folder maybeFile
      if maybeFile ≠ "" ∧ maybeFuncSpec ≠ "" ∧ pathSuffix maybeFile ≠ "" ∧
          ex candidate = true then
        let funcName := normalizeStart maybeFuncSpec
        let pattern :=
          "\\A" ++ reEscape candidate ++ ":" ++ reEscape funcName ++ "\\z"
        let labelFile :=
          if isAbs then (relToF folder candidate).getD maybeFile else maybeFile
        (pattern, labelFile ++ ":" ++ funcName)
      else (normalizeStart r, normalizeStart r)
    | none => (normalizeStart r, normalizeStart r)

def stripSuff (suf l : List Char) : Option (List Char) :=
  (stripPref suf.reverse l.reverse).map List.reverse

/-- Decode a regex built purely from literal characters and escapes into the
literal string it matches. -/
def decodeEsc : List Char → Option (List Char)
  | [] => some []
  | c :: r =>
    if c = '\\' then
      match r with
      | [] => none
      | d :: r' => (decodeEsc r').map (fun l => d :: l)
    else (decodeEsc r).map (fun l => c :: l)

/-- Matching semantics of the generated selectors: a pattern of the shape
`\A<literals/escapes>\z` matches a string iff the string equals the decoded
literal (the anchors force a whole-string match). -/
def anchoredMatches (pat : String) (t : List Char) : Bool :=
  match stripPref ['\\', 'A'] pat.data with
  | none => false
  | some body =>
    match stripSuff ['\\', 'z'] body with
    | none => false
    | some mid =>
      match decodeEsc mid with
      | none => false
      | some lit => lit == t

theorem decodeEsc_reEscapeC_append :
    ∀ (l r : List Char),
      decodeEsc (reEscapeC l ++ r) = (decodeEsc r).map (fun t => l ++ t) := by
  intro l
  induction l with
  | nil =>
    intro r
    cases h : decodeEsc r with
    | none => simp [reEscapeC, h]
    | some t => simp [reEscapeC, h]
  | cons c l' ih =>
    intro r
    cases hsp : reSpecial c with
    | true =>
      rw [show reEscapeC (c :: l') = '\\' :: c :: reEscapeC l' from by
        simp [reEscapeC, hsp]]
      rw [show ('\\' :: c :: reEscapeC l') ++ r = '\\' :: (c :: (reEscapeC l' ++ r))
        from rfl]
      rw [show decodeEsc ('\\' :: (c :: (reEscapeC l' ++ r))) =
        (decodeEsc (reEscapeC l' ++ r)).map (fun t => c :: t) from by
        rw [decodeEsc.eq_def]
        simp]
      rw [ih r]
      cases decodeEsc r with
      | none => rfl
      | some t => rfl
    | false =>
      have hne : c ≠ '\\' := by
        intro h
        rw [h] at hsp
        simp [reSpecial] at hsp
      rw [show reEscapeC (c :: l') = c :: reEscapeC l' from by
        simp [reEscapeC, hsp]]
      rw [show (c :: reEscapeC l') ++ r = c :: (reEscapeC l' ++ r) from rfl]
      rw [show decodeEsc (c :: (reEscapeC l' ++ r)) =
        (decodeEsc (reEscapeC l' ++ r)).map (fun t => c :: t) from by
        rw [decodeEsc.eq_def]
        simp only []
        rw [if_neg hne]]
      rw [ih r]
      cases decodeEsc r with
      | none => rfl
      | some t => rfl

theorem decodeEsc_reEscapeC (l : List Char) :
    decodeEsc (reEscapeC l) = some l := by
  have := decodeEsc_reEscapeC_append l []
  simpa [show decodeEsc [] = some [] from rfl] using this

theorem decodeEsc_mid (cand fn : String) :
    decodeEsc (reEscapeC cand.data ++ ':' :: reEscapeC fn.data) =
      some (cand.data ++ ':' :: fn.data) := by
  rw [decodeEsc_reEscapeC_append cand.data (':' :: reEscapeC fn.data)]
  rw [show decodeEsc (':' :: reEscapeC fn.data) =
      (decodeEsc (reEscapeC fn.data)).map (fun l => ':' :: l) from by
    rw [decodeEsc.eq_def]
    simp only []
    rw [if_neg (by decide)]]
  rw [decodeEsc_reEscapeC fn.data]
  rfl

/-- A generated selector matches exactly the one string
`candidate ++ ":" ++ funcName` and nothing else. -/
theorem anchoredMatches_mk (cand fn : String) (t : List Char) :
    anchoredMatches ("\\A" ++ reEscape cand ++ ":" ++ reEscape fn ++ "\\z") t =
        true ↔
      t = (cand ++ ":" ++ fn).data := by
  have hflat : ("\\A" ++ reEscape cand ++ ":" ++ reEscape fn ++ "\\z").data =
      '\\' :: 'A' ::
        ((reEscapeC cand.data ++ ':' :: reEscapeC fn.data) ++ ['\\', 'z']) := by
    show (((['\\', 'A'] ++ reEscapeC cand.data) ++ [':']) ++ reEscapeC fn.data)
        ++ ['\\', 'z'] = _
    simp
  have h1 : stripPref ['\\', 'A']
      ('\\' :: 'A' ::
        ((reEscapeC cand.data ++ ':' :: reEscapeC fn.data) ++ ['\\', 'z'])) =
      some ((reEscapeC cand.data ++ ':' :: reEscapeC fn.data) ++ ['\\', 'z']) :=
    by simp [stripPref]
  have h2 : stripSuff ['\\', 'z']
      ((reEscapeC cand.data ++ ':' :: reEscapeC fn.data) ++ ['\\', 'z']) =
      some (reEscapeC cand.data ++ ':' :: reEscapeC fn.data) := by
    unfold stripSuff
    rw [show ((reEscapeC cand.data ++ ':' :: reEscapeC fn.data) ++
        ['\\', 'z']).reverse =
      'z' :: '\\' ::
        (reEscapeC cand.data ++ ':' :: reEscapeC fn.data).reverse from by simp]
    rw [show (['\\', 'z'] : List Char).reverse = ['z', '\\'] from rfl]
    rw [show stripPref ['z', '\\']
        ('z' :: '\\' ::
          (reEscapeC cand.data ++ ':' :: reEscapeC fn.data).reverse) =
        some ((reEscapeC cand.data ++ ':' :: reEscapeC fn.data).reverse) from by
      simp [stripPref]]
    simp
  unfold anchoredMatches
  rw [hflat]
  simp only [h1, h2, decodeEsc_mid cand fn]
  rw [beq_iff_eq]
  have happ : (cand ++ ":" ++ fn).data = cand.data ++ ':' :: fn.data := by
    show (cand.data ++ [':']) ++ fn.data = cand.data ++ ':' :: fn.data
    simp
  rw [happ]
  constructor
  · intro h
    exact h.symm
  · intro h
    exact h.symm

theorem startSelector_concrete (folder : String) (ex : String → Bool)
    (relToF : String → String → Option String)
    (hex : ex (folder ++ "/" ++ "src/a.py") = true) :
    startSelector folder ex relToF "src/a.py:foo" =
      ("\\A" ++ reEscape (folder ++ "/" ++ "src/a.py") ++ ":" ++
        reEscape "foo" ++ "\\z", "src/a.py:foo") := by
  unfold startSelector
  simp only [show strTrim "src/a.py:foo" = "src/a.py:foo" from rfl]
  rw [if_neg (show ¬ ("src/a.py:foo" : String).data.isEmpty = true from by
    decide)]
  rw [show splitFirstColon ("src/a.py:foo" : String).data =
      some (("src/a.py" : String).data, ("foo" : String).data) from by decide]
  simp only [show strTrim (String.mk ("src/a.py" : String).data) = "src/a.py"
      from rfl,
    show strTrim (String.mk ("foo" : String).data) = "foo" from rfl]
  simp only [show (match ("src/a.py" : String).data with
      | '/' :: _ => true
      | _ => false) = false from by decide]
  simp only [Bool.false_eq_true, if_false]
  rw [if_pos (show ("src/a.py" : String) ≠ "" ∧ ("foo" : String) ≠ "" ∧
      pathSuffix "src/a.py" ≠ "" ∧
      ex (joinPath folder "src/a.py") = true from
    ⟨by decide, by decide, by decide, hex⟩)]
  rw [show normalizeStart "foo" = "foo" from by decide]
  rw [show joinPath folder "src/a.py" = folder ++ "/" ++ "src/a.py" from rfl]
  rw [show ("src/a.py" : String) ++ ":" ++ "foo" = "src/a.py:foo" from by
    decide]

/-- C7: with `src/a.py` existing under the scan root, resolving
`"src/a.py:foo"` yields the display label `src/a.py:foo` and an anchored
selector that matches exactly the absolute `scan_root/src/a.py:foo` string and
no other node identity (in particular no proper substring or superstring). -/
theorem C7_selector_roundtrip (folder : String) (ex : String → Bool)
    (relToF : String → String → Option String)
    (hex : ex (folder ++ "/" ++ "src/a.py") = true) :
    (startSelector folder ex relToF "src/a.py:foo").2 = "src/a.py:foo" ∧
    ∀ t : List Char,
      (anchoredMatches (startSelector folder ex relToF "src/a.py:foo").1 t =
          true ↔
        t = (folder ++ "/" ++ "src/a.py" ++ ":" ++ "foo").data) := by
  rw [startSelector_concrete folder ex relToF hex]
  exact ⟨rfl, fun t => anchoredMatches_mk (folder ++ "/" ++ "src/a.py") "foo" t⟩

theorem C7_selector_roundtrip_witness :
    (startSelector "root" (fun s => s == "root/src/a.py") (fun _ _ => none)
        "src/a.py:foo").2 = "src/a.py:foo" ∧
    anchoredMatches
      (startSelector "root" (fun s => s == "root/src/a.py") (fun _ _ => none)
        "src/a.py:foo").1 ("root/src/a.py:foo" : String).data = true ∧
    anchoredMatches
      (startSelector "root" (fun s => s == "root/src/a.py") (fun _ _ => none)
        "src/a.py:foo").1 ("root/src/a.py:foobar" : String).data = false :=
  ⟨(C7_selector_roundtrip "root" (fun s => s == "root/src/a.py")
      (fun _ _ => none) (by decide)).1,
    ((C7_selector_roundtrip "root" (fun s => s == "root/src/a.py")
        (fun _ _ => none) (by decide)).2 _).mpr (by decide),
    by
      have h := (C7_selector_roundtrip "root" (fun s => s == "root/src/a.py")
        (fun _ _ => none) (by decide)).2
        ("root/src/a.py:foobar" : String).data
      cases hv : anchoredMatches
        (startSelector "root" (fun s => s == "root/src/a.py")
          (fun _ _ => none) "src/a.py:foo").1
        ("root/src/a.py:foobar" : String).data
      · rfl
      · exact absurd (h.mp hv) (by decide)⟩

/-! ## Source Normalizer: generic-call bracket stripping (§4.2b)

Modelled from the spec: the Source Normalizer component (`normalize_tree` and
its per-line rewrites) is not present under the repository sources — only the
specification describes it — so the generic-call stripping is embedded here
from the spec's words: scan a line for the `::<` marker, skip the
angle-bracketed segment tracking nested `<`/`>` depth, and remove
`::<...>` only when the segment is immediately followed, after optional
whitespace, by an opening parenthesis; otherwise leave the text unchanged and
continue scanning. -/

/-- Skip to the matching `>` at nesting depth 0, returning the remainder. -/
def findClose : List Char → Nat → Option (List Char)
  | [], _ => none
  | c :: r, d =>
    if c = '<' then findClose r (d + 1)
    else if c = '>' then
      match d with
      | 0 => some r
      | d' + 1 => findClose r d'
    else findClose r d

def nextIsLParen (l : List Char) : Bool :=
  match l.dropWhile isWsChar with
  | '(' :: _ => true
  | _ => false

/-- Recognize the `::<` marker at the head, returning what follows it. -/
def takeMarker : List Char → Option (List Char)
  | ':' :: ':' :: '<' :: rest => some rest
  | _ => none

/-- Modelled from the spec: one line of generic-call bracket stripping.  The
fuel is the remaining scan budget; `stripGenericCalls` supplies the line
length, which always suffices since every step consumes at least one
character. -/
def stripG : Nat → List Char → List Char
  | 0, cs => cs
  | _ + 1, [] => []
  | fuel + 1, c :: rest =>
    match takeMarker (c :: rest) with
    | some rest' =>
      match findClose rest' 0 with
      | some after =>
        if nextIsLParen after then stripG fuel after
        else c :: stripG fuel rest
      | none => c :: stripG fuel rest
    | none => c :: stripG fuel rest

def stripGenericCalls (line : String) : String :=
  String.mk (stripG line.data.length line.data)

def hasMarker : List Char → Bool
  | [] => false
  | c :: rest => (takeMarker (c :: rest)).isSome || hasMarker rest

theorem stripG_no_marker :
    ∀ (fuel : Nat) (cs : List Char), hasMarker cs = false →
      stripG fuel cs = cs := by
  intro fuel
  induction fuel with
  | zero => intro cs _; rfl
  | succ n ih =>
    intro cs h
    cases cs with
    | nil => rfl
    | cons c rest =>
      rw [show hasMarker (c :: rest) =
          ((takeMarker (c :: rest)).isSome || hasMarker rest) from rfl] at h
      rcases Bool.or_eq_false_iff.mp h with ⟨htm, hrest⟩
      cases htk : takeMarker (c :: rest) with
      | some rest' => rw [htk] at htm; exact Bool.noConfusion htm
      | none =>
        simp only [stripG, htk]
        rw [ih rest hrest]

/-- C8: generic-call bracket stripping (modelled from the spec).  The example
call line loses exactly its angle-bracketed type-argument segment (nested
brackets included), a `::<` with no following parenthesis is left unchanged,
and any line containing no `::<` marker at all is returned verbatim. -/
theorem C8_generic_call_stripping :
    stripGenericCalls "result = compute::<Foo, Bar>(x, y)" =
      "result = compute(x, y)" ∧
    stripGenericCalls "if x > a::<B" = "if x > a::<B" ∧
    stripGenericCalls "h = wrap::<Vec<Tuple<A, B>>, C>(y) + tail::<D>(z)" =
      "h = wrap(y) + tail(z)" ∧
    stripGenericCalls "cmp = a::<B> x" = "cmp = a::<B> x" ∧
    (∀ (fuel : Nat) (cs : List Char), hasMarker cs = false →
      stripG fuel cs = cs) := by
  refine ⟨by decide, by decide, by decide, ?_, stripG_no_marker⟩
  decide

theorem C8_generic_call_stripping_witness :
    stripG 7 ("abc" : String).data = ("abc" : String).data :=
  C8_generic_call_stripping.2.2.2.2 7 ("abc" : String).data (by decide)

/-! ## The header splice (`_prepend_tree_to_subset_file` lines 393-409)

`content.splitlines(keepends=True)` is modelled for `\n` line endings; the
`while` loop skipping leading `#!` lines is `takeWhile`; the written content is
the concatenation of the prefix lines, the comment block (one trailing blank
line), and the remaining lines.  The filesystem is modelled as an
`Option String` (the file's content, or `none` when reading raises). -/

def commentMarkerByLanguage : List (String × String) :=
  [("awk", "#"), ("bas", "'"), ("c", "//"), ("cpp", "//"), ("dart", "//"),
   ("for", "!"), ("go", "//"), ("java", "//"), ("jl", "#"), ("js", "//"),
   ("kt", "//"), ("lua", "--"), ("m", "%"), ("pas", "//"), ("php", "//"),
   ("pl", "#"), ("py", "#"), ("r", "#"), ("rb", "#"), ("rs", "//"),
   ("sc", "//"), ("sh", "#"), ("swift", "//"), ("tcl", "#"), ("ts", "//"),
   ("v", "//")]

/-- `_comment_prefix` (lines 263-264). -/
def commentMarker (language : String) : String :=
  ((commentMarkerByLanguage.find? (fun p => p.1 = language)).map (·.2)).getD "#"

/-- `splitlines(keepends=True)` for `\n` line endings. -/
def splitKN : List Char → List Char → List (List Char)
  | [], acc => if acc.isEmpty then [] else [acc]
  | c :: rest, acc =>
    if c = '\n' then (acc ++ ['\n']) :: splitKN rest []
    else splitKN rest (acc ++ [c])

def isHashBang (l : List Char) : Bool :=
  match l with
  | '#' :: '!' :: _ => true
  | _ => false

/-- The comment block: every tree line prefixed by the language's line-comment
marker and a space, plus one blank line (line 407). -/
def blockOf (language : String) (treeLines : List String) : List Char :=
  (treeLines.flatMap
    (fun l => (commentMarker language).data ++ ' ' :: l.data ++ ['\n'])) ++
    ['\n']

def prependTreeC (language : String) (content : List Char)
    (treeLines : List String) : List Char :=
  let lines := splitKN content []
  (lines.takeWhile isHashBang).flatten ++ blockOf language treeLines ++
    (lines.dropWhile isHashBang).flatten

/-- `_prepend_tree_to_subset_file`'s content transformation (lines 396-409):
the early return for an empty tree, then splice. -/
def prependTree (language : String) (content : String)
    (treeLines : List String) : String :=
  if treeLines.isEmpty then content
  else String.mk (prependTreeC language content.data treeLines)

/-- `_prepend_tree_to_subset_file` as an operation on the file: `none` input
means the file is missing/unreadable (reading would raise); the outer `none`
result means the operation raised.  The empty-tree early return happens before
any filesystem access. -/
def prependTreeFile (language : String) (treeLines : List String)
    (file : Option String) : Option (Option String) :=
  if treeLines.isEmpty then some file
  else
    match file with
    | none => none
    | some content => some (some (prependTree language content treeLines))

theorem splitKN_join :
    ∀ (cs acc : List Char), (splitKN cs acc).flatten = acc ++ cs := by
  intro cs
  induction cs with
  | nil =>
    intro acc
    cases h : acc.isEmpty
    · simp [splitKN, h]
    · simp [splitKN, h, List.isEmpty_iff.mp h]
  | cons c rest ih =>
    intro acc
    by_cases hc : c = '\n'
    · subst hc
      rw [show splitKN ('\n' :: rest) acc = (acc ++ ['\n']) :: splitKN rest []
        from by simp [splitKN]]
      rw [List.flatten_cons, ih []]
      simp
    · rw [show splitKN (c :: rest) acc = splitKN rest (acc ++ [c]) from by
        simp [splitKN, hc]]
      rw [ih (acc ++ [c])]
      simp

theorem takeWhile_all {α : Type} (p : α → Bool) (l : List α) :
    ∀ x ∈ l.takeWhile p, p x = true :=
  fun _ hx => List.mem_takeWhile_imp hx

/-- C9: for a non-empty tree, the splice writes exactly `A ++ block ++ B`
where `A` is the leading run of `#!` lines of the original content, `block` is
the comment block (every tree line behind the language's line-comment marker,
then one blank line), and `A ++ B` is byte-for-byte the original content — so
every original line before and after the insertion point is unchanged. -/
theorem C9_prepend_tree_frame (language : String) (content : String)
    (treeLines : List String) (h : treeLines ≠ []) :
    (prependTree language content treeLines).data =
      ((splitKN content.data []).takeWhile isHashBang).flatten ++
        blockOf language treeLines ++
        ((splitKN content.data []).dropWhile isHashBang).flatten ∧
    ((splitKN content.data []).takeWhile isHashBang).flatten ++
        ((splitKN content.data []).dropWhile isHashBang).flatten =
      content.data ∧
    (∀ l ∈ (splitKN content.data []).takeWhile isHashBang,
      isHashBang l = true) := by
  refine ⟨?_, ?_, takeWhile_all isHashBang _⟩
  · unfold prependTree
    rw [if_neg (by simpa [List.isEmpty_iff] using h)]
    rfl
  · rw [← List.flatten_append, List.takeWhile_append_dropWhile]
    exact splitKN_join content.data []

theorem C9_prepend_tree_frame_witness :
    ((splitKN ("#!hdr\nbody\n" : String).data []).takeWhile
        isHashBang).flatten ++
      ((splitKN ("#!hdr\nbody\n" : String).data []).dropWhile
        isHashBang).flatten =
      ("#!hdr\nbody\n" : String).data :=
  (C9_prepend_tree_frame "py" "#!hdr\nbody\n" ["T"] (by decide)).2.1

/-- C10: with an empty rendered tree the splice is a complete no-op: the
operation returns before touching the filesystem, the file content — even a
missing file — is unchanged, and no error is raised. -/
theorem C10_prepend_tree_empty_noop :
    (∀ (language : String) (file : Option String),
      prependTreeFile language [] file = some file) ∧
    prependTreeFile "py" [] none = some none := by
  exact ⟨fun _ _ => rfl, rfl⟩
